import Mathlib

/-!
Shallow embedding of `src/process_medical_data.py` (repository JSONL_SHIFT).

The program transforms one span-annotated medical record (parsed from a JSONL
line) into a nested per-event structure: it merges attribute relations into
entities, segments the text into events at trigger-word offsets, synthesizes
"方剂" (formula) entities for "未知方剂" (unknown-formula) spans, filters
attribute-only relations, and classifies entities into three argument groups.

Modelling conventions:
* Python dict entities become the nested inductive `Entity`; the only in-place
  mutation the source performs on an entity is adding keys to its `属性`
  (attribute) map, so mutation is modelled by rebuilding the entity list with
  the attribute-updated value at the mutated position.  Identifier, label and
  offsets are never mutated by the source.
* `entity_by_id` (built once at line 30, extended with synthesized formulas at
  line 152) is modelled by `entity_by_id_get`: synthesized entries (newest
  first) shadow the initial map, and within the initial list the last entity
  with a given id wins, matching dict-build order.
* `dict.get(k, default)` becomes `Option` with `getD`; record fields `text`,
  `entities`, `relations` are `Option`s defaulted exactly as at lines 25-27.
* Python's stable `sorted(..., key=start_offset)` is modelled by a stable
  insertion sort `sortedByStart`; any two stable sorts by the same key agree
  on every input list.
* Python string slicing `text[start:end]` is `pySlice` (negative and
  out-of-range indices clamped as in CPython).
* Attribute values are stored as snapshots of the target entity at attachment
  time; the source stores an object reference whose later attribute-map
  mutations remain visible, but no downstream computation of the program reads
  the inside of an attribute value, so the snapshot is observationally equal.
-/

namespace Med

/-- An annotation identifier: a JSON integer (input entities/relations) or a
synthesized string id such as `"{record_id}-{event_order}-{seq}"`. -/
inductive EId where
  | num (n : Int)
  | str (s : String)
deriving DecidableEq, Repr

/-- An entity dict: `id`, `label`, `start_offset`, `end_offset`, `text`, and
the optional `属性` attribute map (absent until a merge pass creates it). -/
inductive Entity where
  | mk (id : EId) (label : Option String) (start_offset : Option Int)
      (end_offset : Option Int) (txt : Option String)
      (attrs : Option (List (String × Entity))) : Entity
deriving Repr

def Entity.id : Entity → EId
  | .mk i _ _ _ _ _ => i

def Entity.label : Entity → Option String
  | .mk _ l _ _ _ _ => l

def Entity.start_offset : Entity → Option Int
  | .mk _ _ s _ _ _ => s

def Entity.end_offset : Entity → Option Int
  | .mk _ _ _ e _ _ => e

def Entity.txt : Entity → Option String
  | .mk _ _ _ _ t _ => t

def Entity.attrs : Entity → Option (List (String × Entity))
  | .mk _ _ _ _ _ a => a

@[simp] theorem Entity.id_mk (i l s e t a) : (Entity.mk i l s e t a).id = i := rfl
@[simp] theorem Entity.label_mk (i l s e t a) : (Entity.mk i l s e t a).label = l := rfl
@[simp] theorem Entity.start_offset_mk (i l s e t a) :
    (Entity.mk i l s e t a).start_offset = s := rfl
@[simp] theorem Entity.end_offset_mk (i l s e t a) :
    (Entity.mk i l s e t a).end_offset = e := rfl
@[simp] theorem Entity.txt_mk (i l s e t a) : (Entity.mk i l s e t a).txt = t := rfl
@[simp] theorem Entity.attrs_mk (i l s e t a) : (Entity.mk i l s e t a).attrs = a := rfl

mutual

/-- Python `==` on entity dicts (deep structural equality), used by the
`zy not in event_entities` membership test at lines 155 and 166. -/
def Entity.beq : Entity → Entity → Bool
  | .mk i1 l1 s1 e1 t1 a1, .mk i2 l2 s2 e2 t2 a2 =>
    i1 == i2 && l1 == l2 && s1 == s2 && e1 == e2 && t1 == t2 && Entity.attrsBeq a1 a2

def Entity.attrsBeq :
    Option (List (String × Entity)) → Option (List (String × Entity)) → Bool
  | none, none => true
  | some l1, some l2 => Entity.alistBeq l1 l2
  | _, _ => false

def Entity.alistBeq : List (String × Entity) → List (String × Entity) → Bool
  | [], [] => true
  | (k1, v1) :: r1, (k2, v2) :: r2 => k1 == k2 && Entity.beq v1 v2 && Entity.alistBeq r1 r2
  | _, _ => false

end

instance : BEq Entity := ⟨Entity.beq⟩

/-- A relation dict: `id`, `from_id`, `to_id`, `type` (the last three read with
tolerant `dict.get`). -/
structure Rel where
  id : EId
  from_id : Option EId
  to_id : Option EId
  type : Option String
deriving DecidableEq, Repr

/-- The `id_counters` dict threaded between records: `{"entity": .., "relation": ..}`. -/
structure Counters where
  entity : Int
  relation : Int
deriving DecidableEq, Repr

/-- One parsed input record (a JSONL line after `json.loads`): `id` is kept in
its string rendering (it is only compared and interpolated), and the three
content fields are optional exactly as read at lines 25-27. -/
structure RawRecord where
  id : String
  text : Option String
  entities : Option (List Entity)
  relations : Option (List Rel)

/-- One argument group of an event: an entity list and a relation list. -/
structure EvArgs where
  entities : List Entity
  relations : List Rel

/-- The event object assembled at lines 193-210. `src` is the `原文` field,
`bianzhen`/`lunzhi`/`lilun` are the 辨证/论治/理论依据 argument groups. -/
structure EventObj where
  event_id : String
  order : Nat
  text_range : Int × Int
  src : String
  bianzhen : EvArgs
  lunzhi : EvArgs
  lilun : EvArgs

/-- The record's output dict `{"id": .., "text": .., "事件": events}`. -/
structure Output where
  id : String
  text : String
  events : List EventObj

/-- The module-level set `ATTRIBUTE_REL_TYPES` (line 4). -/
def ATTRIBUTE_REL_TYPES : List String :=
  ["药物用量", "炮制方法", "药物功用", "方剂用法", "方剂剂型"]

/-- Models `rel.get("type") not in ATTRIBUTE_REL_TYPES` (line 178). -/
def notAttrType (r : Rel) : Bool :=
  match r.type with
  | some t => !(ATTRIBUTE_REL_TYPES.contains t)
  | none => true

/-- Python dict assignment `m[k] = v`: replace in place if the key exists,
otherwise append (insertion order preserved). -/
def dictSet (m : List (String × Entity)) (k : String) (v : Entity) :
    List (String × Entity) :=
  if m.any (fun p => p.1 == k) then m.map (fun p => if p.1 == k then (k, v) else p)
  else m ++ [(k, v)]

/-- Models `if "属性" not in e: e["属性"] = {}` followed by `e["属性"][k] = v`. -/
def Entity.setAttr (e : Entity) (k : String) (v : Entity) : Entity :=
  match e with
  | .mk i l s en t a => .mk i l s en t (some (dictSet (a.getD []) k v))

/-- Lookup in the initial `entity_by_id` map (line 30): built front to back, so
the last entity with a given id wins. -/
def lookupLast (es : List Entity) (i : EId) : Option Entity :=
  match es with
  | [] => none
  | e :: rest =>
    match lookupLast rest i with
    | some r => some r
    | none => if e.id == i then some e else none

/-- Update the entity object `entity_by_id` resolves `i` to, i.e. the last
element with that id; positions never change in the source. -/
def updateLast (es : List Entity) (i : EId) (f : Entity → Entity) : List Entity :=
  match es with
  | [] => []
  | e :: rest =>
    if (lookupLast rest i).isSome then e :: updateLast rest i f
    else if e.id == i then f e :: rest else e :: rest

/-- Update the first element satisfying `p` (the object `next(...)`-style
first-match scans resolve to). -/
def updateFirst (es : List Entity) (p : Entity → Bool) (f : Entity → Entity) :
    List Entity :=
  match es with
  | [] => []
  | e :: rest => if p e then f e :: rest else e :: updateFirst rest p f

/-- Models `entity_by_id.get(i)` after zero or more `entity_by_id[new_id] = new_fangji`
registrations (line 152): newest registrations shadow older keys. -/
def entity_by_id_get (extra : List (EId × Entity)) (es : List Entity) (i : EId) :
    Option Entity :=
  match extra.find? (fun p => p.1 == i) with
  | some p => some p.2
  | none => lookupLast es i

/-- Models `e.get("start_offset", 0)`. -/
def startEff (e : Entity) : Int := e.start_offset.getD 0

/-- Models `e.get("end_offset", 0)`. -/
def endEff (e : Entity) : Int := e.end_offset.getD 0

/-- Models `entity_by_id.get(k, {}).get("start_offset", 0)`: an unresolvable id acts
as an empty dict whose offsets default to 0 (lines 101-104). -/
def effStart (o : Option Entity) : Int := (o.map startEff).getD 0

/-- Models `entity_by_id.get(k, {}).get("end_offset", 0)`. -/
def effEnd (o : Option Entity) : Int := (o.map endEff).getD 0

/-- CPython slice index resolution for `s[a:b]`. -/
def pyIndex (n : Nat) (i : Int) : Nat :=
  if i < 0 then ((n : Int) + i).toNat else min i.toNat n

/-- Python string slice `s[a:b]` (character, i.e. code-point, based). -/
def pySlice (s : String) (a b : Int) : String :=
  ⟨(s.data.drop (pyIndex s.length a)).take (pyIndex s.length b - pyIndex s.length a)⟩

/-- Normalized attribute key for pass 1 (lines 48-55). -/
def prop_key_of (rt : String) : String :=
  if rt == "药物用量" then "用量"
  else if rt == "炮制方法" then "制法"
  else if rt == "药物功用" then "功用"
  else rt

/-- One iteration of pass 1 (lines 40-58): fold a 药物用量/炮制方法/药物功用
relation into its source 中药/辅料 entity; unresolvable endpoints are skipped. -/
def mergeStep (es : List Entity) (r : Rel) : List Entity :=
  match r.type with
  | none => es
  | some rt =>
    if rt == "药物用量" || rt == "炮制方法" || rt == "药物功用" then
      match r.from_id with
      | none => es
      | some fid =>
        match lookupLast es fid, r.to_id.bind (lookupLast es) with
        | some fe, some te =>
          if fe.label == some "中药" || fe.label == some "辅料" then
            updateLast es fid (fun en => en.setAttr (prop_key_of rt) te)
          else es
        | _, _ => es
    else es

/-- Pass 1, "合并中药/辅料的属性" (lines 40-58). -/
def merge_drug_attrs (es : List Entity) (rels : List Rel) : List Entity :=
  rels.foldl mergeStep es

/-- Pass 2, "合并患者属性" (lines 61-73): resolve the first 患者-labelled
entity, falling back to the carried-forward `global_patient`; attach every
年龄/性别 entity onto the resolved patient's attribute map. Returns the
updated entity list and the resolved patient (post-merge value). -/
def merge_patient_attrs (es : List Entity) (global_patient : Option Entity) :
    List Entity × Option Entity :=
  let localP := es.find? (fun e => e.label == some "患者")
  let pat0 := match localP with
    | some p => some p
    | none => global_patient
  match pat0 with
  | none => (es, none)
  | some p0 =>
    let p1 := es.foldl (fun p e =>
        if e.label == some "年龄" || e.label == some "性别" then
          p.setAttr (e.label.getD "") e
        else p) p0
    match localP with
    | some _ => (updateFirst es (fun e => e.label == some "患者") (fun _ => p1), some p1)
    | none => (es, some p1)

/-- Stable insertion into a list sorted by `startEff` (equal keys keep input
order, as Python's stable `sorted` does). -/
def insertByStart (x : Entity) : List Entity → List Entity
  | [] => [x]
  | y :: ys => if startEff y ≤ startEff x then y :: insertByStart x ys else x :: y :: ys

/-- Models `sorted(triggers, key=lambda x: x.get("start_offset", 0))` (lines 77-80):
a stable sort by effective start offset. -/
def sortedByStart (es : List Entity) : List Entity :=
  es.foldl (fun acc e => insertByStart e acc) []

/-- Consecutive pairs of the chain `a :: bs ++ [n]`. -/
def chainPairs : Int → List Int → Int → List (Int × Int)
  | a, [], n => [(a, n)]
  | a, b :: bs, n => (a, b) :: chainPairs b bs n

/-- Pass 3 (lines 77-88), error path collapsed: event boundaries. With no
trigger the whole text is one event `(0, n)`; otherwise `(0, s1), (s1, s2),
..., (sk, n)` for the sorted trigger start offsets `s1..sk`.  Lines 85-88
index `trigger_entities[i]["start_offset"]` directly, so on a trigger entity
lacking `start_offset` the program raises `KeyError` and produces nothing;
this total version reads the offsets with the line-79 sort key's default
instead, and is faithful exactly on records whose trigger entities all carry
`start_offset`, where it agrees with the fallible `event_boundaries?` below
(theorem `event_boundaries?_eq_some`). -/
def event_boundaries (es : List Entity) (n : Int) : List (Int × Int) :=
  let trigs := sortedByStart (es.filter (fun e => e.label == some "诊疗事件触发词"))
  chainPairs 0 (trigs.map startEff) n

/-- Read the `start_offset` key of every entity, failing if any lacks it. -/
def getOffsets : List Entity → Option (List Int)
  | [] => some []
  | e :: t =>
    match e.start_offset, getOffsets t with
    | some s, some ss => some (s :: ss)
    | _, _ => none

/-- Pass 3 as the program actually performs it (lines 77-88): the sort key of
line 79 is tolerant, but the boundary construction of lines 85-88 reads
`trigger_entities[i]["start_offset"]` by direct indexing on every trigger, so
a trigger entity lacking the key raises `KeyError`; `none` models that raise
(no boundaries, no output for the record).  With no trigger nothing is
indexed and the whole text is one event. -/
def event_boundaries? (es : List Entity) (n : Int) : Option (List (Int × Int)) :=
  match getOffsets (sortedByStart (es.filter (fun e => e.label == some "诊疗事件触发词"))) with
  | none => none
  | some ss => some (chainPairs 0 ss n)

/-- Attribute key chosen at line 114. -/
def fangji_prop_key (rt : Option String) : String :=
  if rt == some "方剂用法" then "用法" else "剂型"

/-- Pass 4.1 (lines 107-117): attach 用法/剂型 attributes to one 方剂 entity by
scanning all record relations for matching outgoing attribute relations. -/
def enrich_fangji (extra : List (EId × Entity)) (es : List Entity) (rels : List Rel)
    (fj : Entity) : Entity :=
  rels.foldl (fun fj r =>
    if r.from_id == some fj.id && (r.type == some "方剂用法" || r.type == some "方剂剂型") then
      match r.to_id.bind (entity_by_id_get extra es) with
      | none => fj
      | some te => fj.setAttr (fangji_prop_key r.type) te
    else fj) fj

/-- State of the 4.2 unknown-formula loop: the event's entity and relation
lists, the extended `entity_by_id` registrations, the relation counter, the
per-event synthesized-formula sequence number, and (bookkeeping) the formulas
and relations synthesized so far in this event. -/
structure UnkSt where
  evEnts : List Entity
  evRels : List Rel
  extra : List (EId × Entity)
  relCtr : Int
  seq : Nat
  synths : List Entity
  newRels : List Rel

/-- Models the id format string of line 142, `record_id`-`event_order`-`new_fangji_seq`. -/
def fmtFangjiId (rid : String) (order : Nat) (seq : Nat) : String :=
  rid ++ "-" ++ Nat.repr order ++ "-" ++ Nat.repr seq

/-- One iteration of the composition-relation loops at lines 154-175: ensure
the nested herb/excipient is present in the event entity list (Python `in`,
i.e. deep value equality) and append a freshly numbered relation to the new
formula. -/
def compStep (nfid : EId) (ty : String)
    (acc : List Entity × List Rel × Int × List Rel) (zy : Entity) :
    List Entity × List Rel × Int × List Rel :=
  let ents := acc.1
  let ents1 := if ents.contains zy then ents else ents ++ [zy]
  let newRel : Rel := ⟨.num (acc.2.2.1 + 1), some zy.id, some nfid, some ty⟩
  (ents1, acc.2.1 ++ [newRel], acc.2.2.1 + 1, acc.2.2.2 ++ [newRel])

/-- The formula entity built at lines 144-149: `{"id": nid, "label": "方剂",
"text": nid+"号方", "属性": fangji_attr}`. -/
def nfEntity (rid : String) (order : Nat) (seq : Nat)
    (fangji_attr : List (String × Entity)) : Entity :=
  .mk (.str (fmtFangjiId rid order seq)) (some "方剂") none none
    (some (fmtFangjiId rid order seq ++ "号方")) (some fangji_attr)

/-- One iteration of pass 4.2 (lines 121-175) for one 未知方剂 entity. -/
def unkStep (rid : String) (order : Nat) (st : UnkSt) (unk : Entity) : UnkSt :=
  let us := startEff unk
  let ue := endEff unk
  let nested := st.evEnts.filter (fun e =>
      !(e.id == unk.id) && decide (us ≤ startEff e) && decide (endEff e ≤ ue))
  let nested_zhongyao := nested.filter (fun e => e.label == some "中药")
  let nested_fuliao := nested.filter (fun e => e.label == some "辅料")
  let fangji_attr := nested.foldl (fun m e =>
      if e.label == some "用法" || e.label == some "剂型" then
        dictSet m (e.label.getD "") e
      else m) []
  let ents0 := st.evEnts.filter (fun e => !(e.id == unk.id))
  let nid := fmtFangjiId rid order st.seq
  let nf : Entity := nfEntity rid order st.seq fangji_attr
  let r1 := nested_zhongyao.foldl (compStep (.str nid) "组成")
      (ents0 ++ [nf], st.evRels, st.relCtr, st.newRels)
  let r2 := nested_fuliao.foldl (compStep (.str nid) "作为辅料组成")
      (r1.1, r1.2.1, r1.2.2.1, r1.2.2.2)
  ⟨r2.1, r2.2.1, (EId.str nid, nf) :: st.extra, r2.2.2.1, st.seq + 1,
    st.synths ++ [nf], r2.2.2.2⟩

/-- Pass 4.2 as a whole (lines 120-175): the loop over the event's 未知方剂
entities, started from the event's selected entity/relation lists with the
per-event sequence counter at 1. -/
def process_unknowns (rid : String) (order : Nat) (evEnts : List Entity)
    (evRels : List Rel) (extra : List (EId × Entity)) (relCtr : Int) : UnkSt :=
  (evEnts.filter (fun e => e.label == some "未知方剂")).foldl (unkStep rid order)
    ⟨evEnts, evRels, extra, relCtr, 1, [], []⟩

/-- The result of processing one event: the assembled event object, the final
internal `event_entities` list, and the synthesized formulas/relations. -/
structure EvRes where
  event : EventObj
  final_entities : List Entity
  synths : List Entity
  newRels : List Rel

/-- In-event test for entities (line 98): both effective offsets within the
closed bounds `start <= off` and `off <= end`. -/
def inEvent (s en : Int) (e : Entity) : Bool :=
  decide (s ≤ startEff e) && decide (endEff e ≤ en)

/-- In-event test for relations (lines 100-104): both endpoints' effective
offsets — via tolerant `entity_by_id` lookup defaulting to an empty dict —
within the bounds. -/
def relInEvent (extra : List (EId × Entity)) (es : List Entity) (s en : Int)
    (r : Rel) : Bool :=
  decide (s ≤ effStart (r.from_id.bind (entity_by_id_get extra es))) &&
  decide (effEnd (r.from_id.bind (entity_by_id_get extra es)) ≤ en) &&
  decide (s ≤ effStart (r.to_id.bind (entity_by_id_get extra es))) &&
  decide (effEnd (r.to_id.bind (entity_by_id_get extra es)) ≤ en)

/-- Process one event boundary (lines 93-211): select entities/relations,
enrich 方剂 entities (4.1), run the 未知方剂 loop (4.2), filter attribute-only
relations (4.3), classify argument groups (4.4) and assemble the event object
(4.5). Returns the event result, the updated record entity list, the updated
`entity_by_id` registrations and the updated relation counter. -/
def process_event (rid : String) (text : String) (patient : Option Entity)
    (relations : List Rel) (es : List Entity) (extra : List (EId × Entity))
    (relCtr : Int) (order : Nat) (b : Int × Int) :
    EvRes × List Entity × List (EId × Entity) × Int :=
  let s := b.1
  let en := b.2
  let event_relations := relations.filter (relInEvent extra es s en)
  let event_entities := (es.filter (inEvent s en)).map (fun e =>
      if e.label == some "方剂" then enrich_fangji extra es relations e else e)
  let es1 := es.map (fun e =>
      if inEvent s en e && e.label == some "方剂" then enrich_fangji extra es relations e
      else e)
  let st := process_unknowns rid order event_entities event_relations extra relCtr
  let final_rels := st.evRels.filter notAttrType
  let bz0 := st.evEnts.filter (fun e =>
      e.label == some "患者" || e.label == some "症状" || e.label == some "病因病机")
  let bz := if bz0.any (fun e => e.label == some "患者") then bz0
    else match patient with
      | some p => bz0 ++ [p]
      | none => bz0
  let lz := st.evEnts.filter (fun e =>
      e.label == some "治则治法" || e.label == some "方剂" ||
      e.label == some "中药" || e.label == some "辅料")
  let ll := st.evEnts.filter (fun e => e.label == some "引文")
  let ev : EventObj :=
    ⟨"Event_" ++ Nat.repr order, order, (s, en), pySlice text s en,
      ⟨bz, []⟩, ⟨lz, final_rels⟩, ⟨ll, []⟩⟩
  (⟨ev, st.evEnts, st.synths, st.newRels⟩, es1, st.extra, st.relCtr)

/-- The event loop of pass 4 (line 93), threading the record entity list, the
`entity_by_id` registrations and the relation counter; `order` is the 1-based
event ordinal `idx + 1`. -/
def process_events (rid : String) (text : String) (patient : Option Entity)
    (relations : List Rel) :
    List (Int × Int) → Nat → List Entity → List (EId × Entity) → Int →
    List EvRes × List Entity × List (EId × Entity) × Int
  | [], _, es, extra, c => ([], es, extra, c)
  | b :: bs, order, es, extra, c =>
    let r := process_event rid text patient relations es extra c order b
    let rest := process_events rid text patient relations bs (order + 1) r.2.1 r.2.2.1 r.2.2.2
    (r.1 :: rest.1, rest.2.1, rest.2.2.1, rest.2.2.2)

/-- Models `max([ids that are ints], default=0)` (lines 34-35). -/
def maxIntIds (l : List EId) : Int :=
  ((l.filterMap (fun i => match i with
    | .num n => some n
    | .str _ => none)).max?).getD 0

/-- The result triple of `process_medical_record`, plus the per-event results
(`evs`) exposing the internal event entity lists and synthesized objects. -/
structure PRes where
  processed : Output
  patient : Option Entity
  id_counters : Counters
  evs : List EvRes

/-- Passes 1 and 2 chained (lines 40-73): the merged entity list and the
resolved patient. -/
def rec_merged (r : RawRecord) (global_patient : Option Entity) :
    List Entity × Option Entity :=
  merge_patient_attrs (merge_drug_attrs (r.entities.getD []) (r.relations.getD []))
    global_patient

/-- Counter initialisation (lines 33-36): the supplied `id_counters`, or the
maxima of the integer entity/relation ids when `None` was passed. -/
def rec_counters0 (r : RawRecord) (id_counters : Option Counters) : Counters :=
  match id_counters with
  | some c => c
  | none => ⟨maxIntIds ((r.entities.getD []).map Entity.id),
      maxIntIds ((r.relations.getD []).map Rel.id)⟩

/-- The whole pass-4 loop of one record, fed with the pass-3 boundaries. -/
def rec_loop (r : RawRecord) (global_patient : Option Entity)
    (id_counters : Option Counters) :
    List EvRes × List Entity × List (EId × Entity) × Int :=
  process_events r.id (r.text.getD "") (rec_merged r global_patient).2
    (r.relations.getD [])
    (event_boundaries (rec_merged r global_patient).1 (((r.text.getD "").length : Int)))
    1 (rec_merged r global_patient).1 [] (rec_counters0 r id_counters).relation

/-- Models `process_medical_record` (lines 6-215), after `json.loads`: field defaults
(25-27), counter seeding when `id_counters is None` (33-36), pass 1 (40-58),
pass 2 (61-73), segmentation (77-88) and the event loop (93-211). -/
def process_medical_record (r : RawRecord) (global_patient : Option Entity)
    (id_counters : Option Counters) : PRes :=
  ⟨⟨r.id, r.text.getD "", (rec_loop r global_patient id_counters).1.map (·.event)⟩,
    (rec_merged r global_patient).2,
    ⟨(rec_counters0 r id_counters).entity, (rec_loop r global_patient id_counters).2.2.2⟩,
    (rec_loop r global_patient id_counters).1⟩

/-- The record-sequential driver loop of `process_jsonl_file` (lines 222-233),
minus file I/O and JSON decoding: thread the carried patient (`if patient:
global_patient = patient`) and the counters through the records in order. -/
def run_records : List RawRecord → Option Entity → Counters →
    List Output × Option Entity × Counters
  | [], gp, c => ([], gp, c)
  | r :: rest, gp, c =>
    let pr := process_medical_record r gp (some c)
    let gp1 := match pr.patient with
      | some p => some p
      | none => gp
    let out := run_records rest gp1 pr.id_counters
    (pr.processed :: out.1, out.2.1, out.2.2)

/-- Models `process_jsonl_file` (lines 218-236) as a pure function on the parsed
records: counters start at `{"entity": 0, "relation": 0}`, no initial patient. -/
def process_jsonl_file (records : List RawRecord) : List Output :=
  (run_records records none ⟨0, 0⟩).1

/-! ## Basic lemmas about the embedding -/

mutual

theorem Entity.beq_refl : ∀ e : Entity, Entity.beq e e = true
  | .mk i l s e t a => by simp [Entity.beq, Entity.attrsBeq_refl a]

theorem Entity.attrsBeq_refl :
    ∀ a : Option (List (String × Entity)), Entity.attrsBeq a a = true
  | none => by simp [Entity.attrsBeq]
  | some l => by simp [Entity.attrsBeq, Entity.alistBeq_refl l]

theorem Entity.alistBeq_refl : ∀ l : List (String × Entity), Entity.alistBeq l l = true
  | [] => by simp [Entity.alistBeq]
  | (k, v) :: r => by simp [Entity.alistBeq, Entity.beq_refl v, Entity.alistBeq_refl r]

end

/-- Python `x in l` is decided with `==`; an element that is literally present
is always found, since dict equality is reflexive. -/
theorem contains_of_mem {e : Entity} {l : List Entity} (h : e ∈ l) :
    l.contains e = true := by
  induction l with
  | nil => cases h
  | cons a t ih =>
    rcases List.mem_cons.1 h with rfl | h
    · simp [List.contains_cons, BEq.beq, Entity.beq_refl]
    · simp [List.contains_cons, ih h]

/-- The never-mutated part of an entity: id, label and offsets.  Every
mutation the source performs (pass 1, pass 2, pass 4.1) only touches the
`属性` map. -/
def Entity.core (e : Entity) : EId × Option String × Option Int × Option Int :=
  (e.id, e.label, e.start_offset, e.end_offset)

@[simp] theorem Entity.core_setAttr (e : Entity) (k : String) (v : Entity) :
    (e.setAttr k v).core = e.core := by
  cases e; simp [Entity.setAttr, Entity.core]

@[simp] theorem Entity.id_setAttr (e : Entity) (k : String) (v : Entity) :
    (e.setAttr k v).id = e.id := by
  cases e; simp [Entity.setAttr]

@[simp] theorem Entity.label_setAttr (e : Entity) (k : String) (v : Entity) :
    (e.setAttr k v).label = e.label := by
  cases e; simp [Entity.setAttr]

theorem Entity.id_of_core {e f : Entity} (h : e.core = f.core) : e.id = f.id := by
  cases e with
  | mk i l s en t a =>
    cases f with
    | mk i2 l2 s2 en2 t2 a2 =>
      simp only [Entity.core, Entity.id_mk, Entity.label_mk, Entity.start_offset_mk,
        Entity.end_offset_mk, Prod.mk.injEq] at h ⊢
      exact h.1

theorem Entity.label_of_core {e f : Entity} (h : e.core = f.core) : e.label = f.label := by
  cases e with
  | mk i l s en t a =>
    cases f with
    | mk i2 l2 s2 en2 t2 a2 =>
      simp only [Entity.core, Entity.id_mk, Entity.label_mk, Entity.start_offset_mk,
        Entity.end_offset_mk, Prod.mk.injEq] at h ⊢
      exact h.2.1

theorem Entity.startEff_of_core {e f : Entity} (h : e.core = f.core) :
    startEff e = startEff f := by
  cases e with
  | mk i l s en t a =>
    cases f with
    | mk i2 l2 s2 en2 t2 a2 =>
      simp only [Entity.core, Prod.mk.injEq] at h
      simp [startEff, h.2.2.1]

theorem Entity.endEff_of_core {e f : Entity} (h : e.core = f.core) :
    endEff e = endEff f := by
  cases e with
  | mk i l s en t a =>
    cases f with
    | mk i2 l2 s2 en2 t2 a2 =>
      simp only [Entity.core, Prod.mk.injEq] at h
      simp [endEff, h.2.2.2]

/-- Updating via `updateLast` with an attribute-only update preserves every entity's core. -/
theorem coreMap_updateLast (es : List Entity) (i : EId) (f : Entity → Entity)
    (hf : ∀ e, (f e).core = e.core) :
    (updateLast es i f).map Entity.core = es.map Entity.core := by
  induction es with
  | nil => rfl
  | cons e t ih =>
    by_cases h : (lookupLast t i).isSome
    · simp [updateLast, h, ih]
    · by_cases h2 : (e.id == i) = true
      · simp [updateLast, h, h2, hf]
      · simp [updateLast, h, h2]

/-- Replacing the first match (the object a first-match scan resolves to) by a
core-equal value preserves every entity's core. -/
theorem coreMap_updateFirst_of_find (es : List Entity) (pr : Entity → Bool)
    (q p : Entity) (hfind : es.find? pr = some p) (hq : q.core = p.core) :
    (updateFirst es pr (fun _ => q)).map Entity.core = es.map Entity.core := by
  induction es with
  | nil => simp at hfind
  | cons e t ih =>
    by_cases h : pr e = true
    · have : e = p := by simpa [List.find?_cons, h] using hfind
      subst this
      simp [updateFirst, h, hq]
    · have hfind' : t.find? pr = some p := by simpa [List.find?_cons, h] using hfind
      simp [updateFirst, h, ih hfind']

theorem coreMap_mergeStep (es : List Entity) (r : Rel) :
    (mergeStep es r).map Entity.core = es.map Entity.core := by
  unfold mergeStep
  rcases r.type with _ | rt
  · rfl
  · simp only
    split
    · rcases r.from_id with _ | fid
      · rfl
      · simp only
        rcases h1 : lookupLast es fid with _ | fe
        · rfl
        · rcases h2 : r.to_id.bind (lookupLast es) with _ | te
          · rfl
          · simp only
            split
            · exact coreMap_updateLast es fid _ (fun e => Entity.core_setAttr e _ _)
            · rfl
    · rfl

theorem coreMap_merge_drug_attrs (es : List Entity) (rels : List Rel) :
    (merge_drug_attrs es rels).map Entity.core = es.map Entity.core := by
  unfold merge_drug_attrs
  induction rels generalizing es with
  | nil => rfl
  | cons r t ih => simpa [List.foldl_cons, coreMap_mergeStep] using
      (ih (mergeStep es r)).trans (by rw [coreMap_mergeStep])

/-- The patient-attachment fold of pass 2 only adds attributes. -/
theorem core_patientFold (es : List Entity) (p : Entity) :
    (es.foldl (fun p e =>
        if e.label == some "年龄" || e.label == some "性别" then
          p.setAttr (e.label.getD "") e
        else p) p).core = p.core := by
  induction es generalizing p with
  | nil => rfl
  | cons e t ih =>
    simp only [List.foldl_cons]
    rw [ih]
    split
    · exact Entity.core_setAttr p _ _
    · rfl

theorem coreMap_merge_patient_attrs (es : List Entity) (gp : Option Entity) :
    (merge_patient_attrs es gp).1.map Entity.core = es.map Entity.core := by
  unfold merge_patient_attrs
  rcases hL : es.find? (fun e => e.label == some "患者") with _ | p
  · rcases gp with _ | g
    · simp [hL]
    · simp [hL]
  · simp only [hL]
    exact coreMap_updateFirst_of_find es _ _ p hL (core_patientFold es p)

/-- Pass 2 with a local patient resolves to that patient (attribute-enriched,
core unchanged). -/
theorem merge_patient_attrs_snd_local (es : List Entity) (gp : Option Entity)
    (p : Entity) (h : es.find? (fun e => e.label == some "患者") = some p) :
    ∃ q, (merge_patient_attrs es gp).2 = some q ∧ q.core = p.core := by
  unfold merge_patient_attrs
  simp only [h]
  exact ⟨_, rfl, core_patientFold es p⟩

/-- Pass 2 with no local patient: the entity list is unchanged, and the
resolved patient is the inherited one (attribute-enriched, core unchanged),
or `none` if nothing was inherited. -/
theorem merge_patient_attrs_snd_nolocal (es : List Entity) (gp : Option Entity)
    (h : es.find? (fun e => e.label == some "患者") = none) :
    (merge_patient_attrs es gp).1 = es ∧
    (gp = none → (merge_patient_attrs es gp).2 = none) ∧
    (∀ g, gp = some g → ∃ q, (merge_patient_attrs es gp).2 = some q ∧ q.core = g.core) := by
  unfold merge_patient_attrs
  simp only [h]
  rcases gp with _ | g
  · refine ⟨rfl, fun _ => rfl, fun g hg => ?_⟩
    cases hg
  · refine ⟨rfl, fun hg => ?_, fun g' hg => ?_⟩
    · cases hg
    · injection hg with hgg
      subst hgg
      exact ⟨_, rfl, core_patientFold es _⟩

/-- A label-based first-match scan gives core-equal results on core-equal
lists (merge passes never change labels). -/
theorem find?_label_congr (L : String) :
    ∀ (es es' : List Entity), es.map Entity.core = es'.map Entity.core →
    Option.map Entity.core (es.find? (fun e => e.label == some L)) =
      Option.map Entity.core (es'.find? (fun e => e.label == some L))
  | [], [], _ => rfl
  | [], _ :: _, h => by simp at h
  | _ :: _, [], h => by simp at h
  | e :: t, e' :: t', h => by
    simp only [List.map_cons, List.cons.injEq] at h
    have hl : e.label = e'.label := Entity.label_of_core h.1
    by_cases hp : (e.label == some L) = true
    · have hp2 : (e'.label == some L) = true := by rw [← hl]; exact hp
      simp only [List.find?_cons, hp, hp2]
      simp [h.1]
    · have hpf : (e.label == some L) = false := by simpa using hp
      have hp2f : (e'.label == some L) = false := by rw [← hl]; exact hpf
      simp only [List.find?_cons, hpf, hp2f]
      exact find?_label_congr L t t' h.2

/-! ### The stable sort on effective start offsets, at the level of `Int` -/

/-- The sort insertion `insertByStart` on the key values. -/
def insInt (x : Int) : List Int → List Int
  | [] => [x]
  | y :: ys => if y ≤ x then y :: insInt x ys else x :: y :: ys

/-- The sort `sortedByStart` on the key values. -/
def sortInts (l : List Int) : List Int :=
  l.foldl (fun acc e => insInt e acc) []

theorem map_insertByStart (x : Entity) (l : List Entity) :
    (insertByStart x l).map startEff = insInt (startEff x) (l.map startEff) := by
  induction l with
  | nil => rfl
  | cons y ys ih =>
    by_cases h : startEff y ≤ startEff x
    · simp [insertByStart, insInt, h, ih]
    · simp [insertByStart, insInt, h]

theorem map_sortedByStart (l : List Entity) :
    (sortedByStart l).map startEff = sortInts (l.map startEff) := by
  suffices h : ∀ (l : List Entity) (acc : List Entity),
      ((l.foldl (fun a e => insertByStart e a) acc).map startEff) =
        (l.map startEff).foldl (fun a e => insInt e a) (acc.map startEff) by
    simpa using h l []
  intro l
  induction l with
  | nil => intro acc; rfl
  | cons e t ih =>
    intro acc
    simp only [List.foldl_cons, List.map_cons]
    rw [ih, map_insertByStart]

theorem insInt_perm (x : Int) (l : List Int) : (insInt x l).Perm (x :: l) := by
  induction l with
  | nil => rfl
  | cons y ys ih =>
    by_cases h : y ≤ x
    · simpa [insInt, h] using ((ih.cons y).trans (List.Perm.swap x y ys))
    · simp [insInt, h]

theorem sortInts_perm (l : List Int) : (sortInts l).Perm l := by
  suffices h : ∀ (l acc : List Int),
      (l.foldl (fun a e => insInt e a) acc).Perm (l ++ acc) by
    simpa using h l []
  intro l
  induction l with
  | nil => intro acc; simp
  | cons e t ih =>
    intro acc
    simp only [List.foldl_cons, List.cons_append]
    exact ((ih (insInt e acc)).trans
      (List.Perm.append_left t (insInt_perm e acc))).trans List.perm_middle

theorem insertByStart_perm (x : Entity) (l : List Entity) :
    (insertByStart x l).Perm (x :: l) := by
  induction l with
  | nil => rfl
  | cons y ys ih =>
    by_cases h : startEff y ≤ startEff x
    · simpa [insertByStart, h] using ((ih.cons y).trans (List.Perm.swap x y ys))
    · simp [insertByStart, h]

theorem sortedByStart_perm (l : List Entity) : (sortedByStart l).Perm l := by
  suffices h : ∀ (l acc : List Entity),
      (l.foldl (fun a e => insertByStart e a) acc).Perm (l ++ acc) by
    simpa using h l []
  intro l
  induction l with
  | nil => intro acc; simp
  | cons e t ih =>
    intro acc
    simp only [List.foldl_cons, List.cons_append]
    exact ((ih (insertByStart e acc)).trans
      (List.Perm.append_left t (insertByStart_perm e acc))).trans List.perm_middle

/-- When every entity of the list carries a `start_offset`, reading the key
never fails and yields exactly the effective offsets. -/
theorem getOffsets_eq_map (l : List Entity)
    (h : ∀ e ∈ l, (Entity.start_offset e).isSome = true) :
    getOffsets l = some (l.map startEff) := by
  induction l with
  | nil => rfl
  | cons e t ih =>
    obtain ⟨s, hs⟩ := Option.isSome_iff_exists.1 (h e (List.mem_cons_self e t))
    rw [getOffsets, hs, ih (fun x hx => h x (List.mem_cons_of_mem e hx))]
    simp [startEff, hs]

/-- On a record whose trigger entities all carry `start_offset`, the direct
indexing of lines 85-88 raises no `KeyError` and the boundaries agree with the
error-path-collapsed total model. -/
theorem event_boundaries?_eq_some (es : List Entity) (n : Int)
    (h : ∀ e ∈ es, e.label = some "诊疗事件触发词" →
      (Entity.start_offset e).isSome = true) :
    event_boundaries? es n = some (event_boundaries es n) := by
  have hmem : ∀ e ∈ sortedByStart (es.filter (fun e => e.label == some "诊疗事件触发词")),
      (Entity.start_offset e).isSome = true := by
    intro e he
    have he2 := (sortedByStart_perm _).mem_iff.1 he
    obtain ⟨hemem, hlab⟩ := List.mem_filter.1 he2
    exact h e hemem (by simpa using hlab)
  unfold event_boundaries?
  rw [getOffsets_eq_map _ hmem]
  rfl

theorem sorted_insInt (x : Int) (l : List Int) (h : l.Sorted (· ≤ ·)) :
    (insInt x l).Sorted (· ≤ ·) := by
  induction l with
  | nil => simp [insInt]
  | cons y ys ih =>
    rcases List.sorted_cons.1 h with ⟨hy, hys⟩
    by_cases hle : y ≤ x
    · simp only [insInt, hle, if_true]
      refine List.sorted_cons.2 ⟨?_, ih hys⟩
      intro b hb
      have := (insInt_perm x ys).mem_iff.1 hb
      rcases List.mem_cons.1 this with rfl | hmem
      · exact hle
      · exact hy b hmem
    · simp only [insInt, hle, if_false]
      refine List.sorted_cons.2 ⟨?_, h⟩
      intro b hb
      rcases List.mem_cons.1 hb with rfl | hmem
      · omega
      · have := hy b hmem; omega

theorem sorted_sortInts (l : List Int) : (sortInts l).Sorted (· ≤ ·) := by
  suffices h : ∀ (l acc : List Int), acc.Sorted (· ≤ ·) →
      (l.foldl (fun a e => insInt e a) acc).Sorted (· ≤ ·) by
    exact h l [] (by simp)
  intro l
  induction l with
  | nil => intro acc h; simpa using h
  | cons e t ih =>
    intro acc h
    exact ih (insInt e acc) (sorted_insInt e acc h)

/-! ### Partition properties of `chainPairs` -/

theorem chainPairs_union : ∀ (a : Int) (ss : List Int) (n : Int),
    ss.Sorted (· ≤ ·) → (∀ s ∈ ss, a ≤ s) → (∀ s ∈ ss, s ≤ n) →
    ∀ x : Int, (∃ p ∈ chainPairs a ss n, p.1 ≤ x ∧ x < p.2) ↔ (a ≤ x ∧ x < n)
  | a, [], n => by
    intro _ _ _ x
    simp [chainPairs]
  | a, s :: ss, n => by
    intro hs hlo hhi x
    rcases List.sorted_cons.1 hs with ⟨hsl, hss⟩
    have ih := chainPairs_union s ss n hss hsl (fun t ht => hhi t (by simp [ht])) x
    have has : a ≤ s := hlo s (by simp)
    have hsn : s ≤ n := hhi s (by simp)
    simp only [chainPairs, List.mem_cons]
    constructor
    · rintro ⟨p, hp | hp, h1, h2⟩
      · subst hp; simp at h1 h2; omega
      · have := ih.1 ⟨p, hp, h1, h2⟩
        omega
    · intro hx
      by_cases hxs : x < s
      · exact ⟨(a, s), Or.inl rfl, hx.1, hxs⟩
      · obtain ⟨p, hp, h⟩ := ih.2 ⟨by omega, hx.2⟩
        exact ⟨p, Or.inr hp, h⟩

theorem chainPairs_fst_ge : ∀ (a : Int) (ss : List Int) (n : Int),
    ss.Sorted (· ≤ ·) → (∀ s ∈ ss, a ≤ s) → ∀ p ∈ chainPairs a ss n, a ≤ p.1
  | a, [], n => by
    intro _ _ p hp
    simp [chainPairs] at hp
    simp [hp]
  | a, s :: ss, n => by
    intro hs hlo p hp
    rcases List.sorted_cons.1 hs with ⟨hsl, hss⟩
    have has : a ≤ s := hlo s (by simp)
    simp only [chainPairs, List.mem_cons] at hp
    rcases hp with rfl | hp
    · exact le_refl a
    · exact le_trans has (chainPairs_fst_ge s ss n hss hsl p hp)

theorem chainPairs_fst_le_snd : ∀ (a : Int) (ss : List Int) (n : Int),
    ss.Sorted (· ≤ ·) → (∀ s ∈ ss, a ≤ s) → (∀ s ∈ ss, s ≤ n) → a ≤ n →
    ∀ p ∈ chainPairs a ss n, p.1 ≤ p.2
  | a, [], n => by
    intro _ _ _ han p hp
    simp [chainPairs] at hp
    simp [hp, han]
  | a, s :: ss, n => by
    intro hs hlo hhi _ p hp
    rcases List.sorted_cons.1 hs with ⟨hsl, hss⟩
    simp only [chainPairs, List.mem_cons] at hp
    rcases hp with rfl | hp
    · simpa using hlo s (by simp)
    · exact chainPairs_fst_le_snd s ss n hss hsl (fun t ht => hhi t (by simp [ht]))
        (hhi s (by simp)) p hp

theorem chainPairs_ordered : ∀ (a : Int) (ss : List Int) (n : Int),
    ss.Sorted (· ≤ ·) → (∀ s ∈ ss, a ≤ s) →
    (chainPairs a ss n).Pairwise (fun p q => p.2 ≤ q.1)
  | a, [], n => by
    intro _ _
    simp [chainPairs]
  | a, s :: ss, n => by
    intro hs hlo
    rcases List.sorted_cons.1 hs with ⟨hsl, hss⟩
    simp only [chainPairs]
    refine List.pairwise_cons.2 ⟨?_, chainPairs_ordered s ss n hss hsl⟩
    intro q hq
    simpa using chainPairs_fst_ge s ss n hss hsl q hq

theorem chainPairs_chain : ∀ (a : Int) (ss : List Int) (n : Int),
    (chainPairs a ss n).Chain' (fun p q => p.2 = q.1)
  | a, [], n => by simp [chainPairs]
  | a, s :: ss, n => by
    have ih := chainPairs_chain s ss n
    have hhead : ∀ q ∈ (chainPairs s ss n).head?, (a, s).2 = q.1 := by
      intro q hq
      cases ss with
      | nil => simp [chainPairs] at hq; simp [← hq]
      | cons b bs => simp [chainPairs] at hq; simp [← hq]
    exact List.chain'_cons'.2 ⟨hhead, ih⟩

/-! ### Transporting event boundaries to the input record -/

/-- The trigger start-offset key list only depends on entity cores. -/
theorem filter_label_map_startEff_congr (L : String) :
    ∀ (es es' : List Entity), es.map Entity.core = es'.map Entity.core →
    ((es.filter (fun e => e.label == some L)).map startEff) =
      ((es'.filter (fun e => e.label == some L)).map startEff)
  | [], [], _ => rfl
  | [], _ :: _, h => by simp at h
  | _ :: _, [], h => by simp at h
  | e :: t, e' :: t', h => by
    simp only [List.map_cons, List.cons.injEq] at h
    have hl : e.label = e'.label := Entity.label_of_core h.1
    by_cases hp : (e.label == some L) = true
    · have hp2 : (e'.label == some L) = true := by rw [← hl]; exact hp
      simp only [List.filter_cons, hp, hp2, if_true, List.map_cons]
      rw [Entity.startEff_of_core h.1, filter_label_map_startEff_congr L t t' h.2]
    · have hpf : (e.label == some L) = false := by simpa using hp
      have hp2f : (e'.label == some L) = false := by rw [← hl]; exact hpf
      simp only [List.filter_cons, hpf, hp2f, Bool.false_eq_true, if_false]
      exact filter_label_map_startEff_congr L t t' h.2

theorem event_boundaries_sortInts (es : List Entity) (n : Int) :
    event_boundaries es n =
      chainPairs 0 (sortInts ((es.filter
        (fun e => e.label == some "诊疗事件触发词")).map startEff)) n := by
  show chainPairs 0 ((sortedByStart
      (List.filter (fun e => e.label == some "诊疗事件触发词") es)).map startEff) n = _
  rw [map_sortedByStart]

theorem event_boundaries_congr (es es' : List Entity) (n : Int)
    (h : es.map Entity.core = es'.map Entity.core) :
    event_boundaries es n = event_boundaries es' n := by
  rw [event_boundaries_sortInts, event_boundaries_sortInts,
    filter_label_map_startEff_congr _ es es' h]

/-- The assembled event's `text_range` is exactly its boundary pair. -/
theorem process_event_text_range (rid : String) (text : String)
    (patient : Option Entity) (relations : List Rel) (es : List Entity)
    (extra : List (EId × Entity)) (relCtr : Int) (order : Nat) (b : Int × Int) :
    (process_event rid text patient relations es extra relCtr order b).1.event.text_range = b :=
  rfl

/-- The event loop emits one event per boundary, in order, carrying the
boundary as `text_range`. -/
theorem process_events_ranges (rid : String) (text : String)
    (patient : Option Entity) (relations : List Rel) :
    ∀ (bounds : List (Int × Int)) (o : Nat) (es : List Entity)
      (extra : List (EId × Entity)) (c : Int),
    ((process_events rid text patient relations bounds o es extra c).1.map
      (fun v => v.event.text_range)) = bounds
  | [], _, _, _, _ => rfl
  | b :: bs, o, es, extra, c => by
    simp only [process_events, List.map_cons]
    rw [process_event_text_range, process_events_ranges rid text patient relations bs]

/-- The output events' `text_range` list is the boundary list computed from
the raw record's own entities and text length. -/
theorem processed_events_ranges (r : RawRecord) (gp : Option Entity)
    (copt : Option Counters) :
    (process_medical_record r gp copt).processed.events.map (fun ev => ev.text_range) =
      event_boundaries (r.entities.getD []) (((r.text.getD "").length : Int)) := by
  unfold process_medical_record rec_loop
  simp only [List.map_map]
  rw [show ((fun ev => EventObj.text_range ev) ∘ fun v => v.event) =
      (fun v : EvRes => v.event.text_range) from rfl]
  rw [process_events_ranges]
  exact event_boundaries_congr _ _ _
    ((coreMap_merge_patient_attrs _ gp).trans (coreMap_merge_drug_attrs _ _))

/-- The list of half-open event ranges a record's output reports. -/
def eventRanges (r : RawRecord) (gp : Option Entity) (copt : Option Counters) :
    List (Int × Int) :=
  (process_medical_record r gp copt).processed.events.map (fun ev => ev.text_range)

/-- C1 (amended): provided every trigger entity carries a `start_offset`
lying within `[0, len(text)]`, the boundary construction of lines 85-88
raises no `KeyError` — the fallible model returns exactly the ranges the
pipeline reports — and those ranges partition `[0, len(text))`: with no
trigger there is exactly one event `(0, len)`, ranges are contiguous, sorted
by start, their union is exactly `[0, len)`, and they are pairwise disjoint.
(As stated the claim is false on two fronts: a trigger with a present but
out-of-range start offset yields non-partitioning ranges — see the
counterexample — and a trigger lacking `start_offset` makes the program
raise, so no partition is produced at all.) -/
theorem c1_boundaries_partition (r : RawRecord) (gp : Option Entity)
    (copt : Option Counters)
    (htrig : ∀ e ∈ r.entities.getD [], e.label = some "诊疗事件触发词" →
      ∃ s : Int, e.start_offset = some s ∧ 0 ≤ s ∧
        s ≤ ((r.text.getD "").length : Int)) :
    event_boundaries? (r.entities.getD []) ((r.text.getD "").length : Int) =
      some (eventRanges r gp copt) ∧
    ((∀ e ∈ r.entities.getD [], ¬ e.label = some "诊疗事件触发词") →
      eventRanges r gp copt = [(0, ((r.text.getD "").length : Int))]) ∧
    (eventRanges r gp copt).Chain' (fun p q => p.2 = q.1) ∧
    (eventRanges r gp copt).Pairwise (fun p q => p.1 ≤ q.1) ∧
    (∀ x : Int, (∃ p ∈ eventRanges r gp copt, p.1 ≤ x ∧ x < p.2) ↔
      (0 ≤ x ∧ x < ((r.text.getD "").length : Int))) ∧
    (eventRanges r gp copt).Pairwise
      (fun p q => ∀ x : Int, p.1 ≤ x → x < p.2 → ¬(q.1 ≤ x ∧ x < q.2)) := by
  have hrs : eventRanges r gp copt =
      chainPairs 0 (sortInts (((r.entities.getD []).filter
        (fun e => e.label == some "诊疗事件触发词")).map startEff))
        ((r.text.getD "").length : Int) := by
    unfold eventRanges
    rw [processed_events_ranges, event_boundaries_sortInts]
  set ss := sortInts (((r.entities.getD []).filter
    (fun e => e.label == some "诊疗事件触发词")).map startEff) with hssdef
  set n : Int := ((r.text.getD "").length : Int) with hndef
  have hsorted : ss.Sorted (· ≤ ·) := sorted_sortInts _
  have hbounds : ∀ y ∈ ss, 0 ≤ y ∧ y ≤ n := by
    intro y hy
    have hy2 := (sortInts_perm _).mem_iff.1 hy
    obtain ⟨e, he, rfl⟩ := List.mem_map.1 hy2
    obtain ⟨hemem, hlab⟩ := List.mem_filter.1 he
    obtain ⟨s, hs, h0, h1⟩ := htrig e hemem (by simpa using hlab)
    rw [show startEff e = s from by simp [startEff, hs]]
    exact ⟨h0, h1⟩
  have hlo : ∀ y ∈ ss, (0 : Int) ≤ y := fun y hy => (hbounds y hy).1
  have hhi : ∀ y ∈ ss, y ≤ n := fun y hy => (hbounds y hy).2
  have h0n : (0 : Int) ≤ n := by
    rw [hndef]
    exact Int.natCast_nonneg _
  refine ⟨?_, ?_, ?_, ?_, ?_, ?_⟩
  · rw [show eventRanges r gp copt = event_boundaries (r.entities.getD []) n from
      processed_events_ranges r gp copt]
    refine event_boundaries?_eq_some _ _ ?_
    intro e he hl
    obtain ⟨s, hs, _, _⟩ := htrig e he hl
    rw [hs]
    rfl
  · intro hno
    have hfil : (r.entities.getD []).filter
        (fun e => e.label == some "诊疗事件触发词") = [] := by
      rw [List.filter_eq_nil_iff]
      intro e he
      simpa using hno e he
    rw [hrs, hssdef, hfil]
    rfl
  · rw [hrs]
    exact chainPairs_chain 0 ss n
  · rw [hrs]
    refine (chainPairs_ordered 0 ss n hsorted hlo).imp_of_mem ?_
    intro p q hp _ hpq
    exact le_trans (chainPairs_fst_le_snd 0 ss n hsorted hlo hhi h0n p hp) hpq
  · intro x
    rw [hrs]
    exact chainPairs_union 0 ss n hsorted hlo hhi x
  · rw [hrs]
    refine (chainPairs_ordered 0 ss n hsorted hlo).imp ?_
    intro p q hpq x h1 h2 hq
    omega

/-- A record whose only trigger starts beyond the end of the text. -/
def c1cexRecord : RawRecord :=
  ⟨"c1", some "ab", some [.mk (.num 1) (some "诊疗事件触发词") (some 5) (some 6) none none],
    some []⟩

/-- C1 counterexample: with a trigger whose start offset (5) exceeds the text
length (2), the produced ranges are `[(0,5), (5,2)]`, whose union contains the
offset 3 even though 3 is not in `[0, len(text)) = [0,2)` — so the ranges do
not partition `[0, len(text))` as the claim states. -/
theorem c1_counterexample :
    (eventRanges c1cexRecord none none = [(0, 5), (5, 2)]) ∧
    (∃ p ∈ eventRanges c1cexRecord none none, p.1 ≤ (3 : Int) ∧ (3 : Int) < p.2) ∧
    ¬ ((0 : Int) ≤ 3 ∧ (3 : Int) < ((("ab" : String).length : Int))) := by
  refine ⟨by decide, ⟨(0, 5), by decide, by decide, by decide⟩, by decide⟩

/-- C1 witness: the amended theorem's union property applied to a concrete
two-trigger record at the offset 3. -/
theorem c1_witness :
    (∃ p ∈ eventRanges
        ⟨"3", some "abcdefgh",
          some [.mk (.num 21) (some "诊疗事件触发词") (some 2) (some 3) none none,
                .mk (.num 22) (some "诊疗事件触发词") (some 5) (some 6) none none],
          some []⟩ none none, p.1 ≤ (3 : Int) ∧ (3 : Int) < p.2) ↔
      ((0 : Int) ≤ 3 ∧ (3 : Int) < ((("abcdefgh" : String).length : Int))) :=
  (c1_boundaries_partition
    ⟨"3", some "abcdefgh",
      some [.mk (.num 21) (some "诊疗事件触发词") (some 2) (some 3) none none,
            .mk (.num 22) (some "诊疗事件触发词") (some 5) (some 6) none none],
      some []⟩ none none (by
        intro e he hl
        have h2 : e = Entity.mk (EId.num 21) (some "诊疗事件触发词") (some 2) (some 3)
              none none ∨
            e = Entity.mk (EId.num 22) (some "诊疗事件触发词") (some 5) (some 6)
              none none := by
          simpa using he
        rcases h2 with rfl | rfl
        · exact ⟨2, rfl, by decide, by decide⟩
        · exact ⟨5, rfl, by decide, by decide⟩)).2.2.2.2.1 3

/-- C10: a record whose `text`, `entities` and `relations` fields are absent
processes without error: the fields default to `""`/`[]`/`[]`, and the output
is exactly one event with range `[0, 0]`, empty source text and empty argument
groups, except that a carried-forward patient is appended to the
diagnostic-reasoning entities; the resolved patient is the carried one and a
supplied counter is returned unchanged (a missing one is seeded to 0). -/
theorem c10_missing_fields (rid : String) (gp : Option Entity) (copt : Option Counters) :
    (process_medical_record ⟨rid, none, none, none⟩ gp copt).processed =
      ⟨rid, "", [⟨"Event_1", 1, (0, 0), "", ⟨gp.toList, []⟩, ⟨[], []⟩, ⟨[], []⟩⟩]⟩ ∧
    (process_medical_record ⟨rid, none, none, none⟩ gp copt).patient = gp ∧
    (process_medical_record ⟨rid, none, none, none⟩ gp copt).id_counters =
      (match copt with
        | some c => c
        | none => ⟨0, 0⟩) := by
  rcases gp with _ | g <;> rcases copt with _ | c <;> exact ⟨rfl, rfl, rfl⟩

/-- Every event object the pass-4 loop emits satisfies any property each
single `process_event` call guarantees. -/
theorem process_events_forall (rid : String) (text : String) (pat : Option Entity)
    (rels : List Rel) (P : EventObj → Prop)
    (hP : ∀ es extra c o b, P (process_event rid text pat rels es extra c o b).1.event) :
    ∀ (bounds : List (Int × Int)) (o : Nat) (es : List Entity)
      (extra : List (EId × Entity)) (c : Int),
      ∀ v ∈ (process_events rid text pat rels bounds o es extra c).1, P v.event
  | [], _, _, _, _ => by
    intro v hv
    simp [process_events] at hv
  | b :: bs, o, es, extra, c => by
    intro v hv
    simp only [process_events, List.mem_cons] at hv
    rcases hv with rfl | hv
    · exact hP es extra c o b
    · exact process_events_forall rid text pat rels P hP bs (o + 1) _ _ _ v hv

/-- C4: in every produced event, the treatment-argument relation list has been
filtered after unknown-formula synthesis, so no remaining relation's type lies
in `ATTRIBUTE_REL_TYPES`. -/
theorem c4_attribute_relations_filtered (r : RawRecord) (gp : Option Entity)
    (copt : Option Counters) :
    ∀ ev ∈ (process_medical_record r gp copt).processed.events,
    ∀ rl ∈ ev.lunzhi.relations, notAttrType rl = true := by
  intro ev hev
  obtain ⟨v, hv, rfl⟩ := List.mem_map.1
    (show ev ∈ (rec_loop r gp copt).1.map (fun v => v.event) from hev)
  intro rl hrl
  exact process_events_forall r.id (r.text.getD "") (rec_merged r gp).2
    (r.relations.getD [])
    (fun evo => ∀ rl ∈ evo.lunzhi.relations, notAttrType rl = true)
    (fun es extra c o b rl2 hrl2 =>
      (List.mem_filter.1 (show rl2 ∈ List.filter notAttrType _ from hrl2)).2)
    _ _ _ _ _ v
    (show v ∈ (process_events r.id (r.text.getD "") (rec_merged r gp).2
      (r.relations.getD [])
      (event_boundaries (rec_merged r gp).1 (((r.text.getD "").length : Int)))
      1 (rec_merged r gp).1 [] (rec_counters0 r copt).relation).1 from hv) rl hrl

/-- A record whose 未知方剂 span nests one herb and one excipient, so that
synthesis appends two composition relations to event 1. -/
def synthRecord : RawRecord :=
  ⟨"7", some "aaaaaaaaaa",
    some [.mk (.num 10) (some "未知方剂") (some 2) (some 8) none none,
          .mk (.num 11) (some "中药") (some 3) (some 4) none none,
          .mk (.num 12) (some "辅料") (some 5) (some 6) none none],
    some []⟩

/-- C4 witness: the theorem applied to a concrete synthesized relation. -/
theorem c4_witness :
    notAttrType ((((process_medical_record synthRecord none none).processed.events.get
        ⟨0, by decide⟩).lunzhi.relations).get ⟨0, by decide⟩) = true :=
  c4_attribute_relations_filtered synthRecord none none _
    (List.get_mem _ 0 (by decide)) _ (List.get_mem _ 0 (by decide))

/-- C6 (amended): an entity is selected for an event `[s, en]` iff it is a
record entity whose effective offsets satisfy `s ≤ start` and `end ≤ en`
(closed at the right endpoint); a relation is selected iff the effective
offsets of its tolerantly looked-up endpoints satisfy the same bounds, which,
whenever both endpoints resolve to record entities, is exactly "both endpoint
entities are selected".  (Membership is not exclusive: a zero-length entity at
a shared boundary is selected by two adjacent events — see counterexample.) -/
@[simp] theorem effStart_some (e : Entity) : effStart (some e) = startEff e := rfl
@[simp] theorem effEnd_some (e : Entity) : effEnd (some e) = endEff e := rfl
@[simp] theorem effStart_none : effStart none = 0 := rfl
@[simp] theorem effEnd_none : effEnd none = 0 := rfl

theorem c6_membership (extra : List (EId × Entity)) (es : List Entity)
    (rels : List Rel) (s en : Int) :
    (∀ e : Entity, e ∈ es.filter (inEvent s en) ↔
      e ∈ es ∧ (s ≤ startEff e ∧ endEff e ≤ en)) ∧
    (∀ r : Rel, r ∈ rels.filter (relInEvent extra es s en) ↔ r ∈ rels ∧
      (s ≤ effStart (r.from_id.bind (entity_by_id_get extra es)) ∧
       effEnd (r.from_id.bind (entity_by_id_get extra es)) ≤ en ∧
       s ≤ effStart (r.to_id.bind (entity_by_id_get extra es)) ∧
       effEnd (r.to_id.bind (entity_by_id_get extra es)) ≤ en)) ∧
    (∀ (r : Rel) (fa ta : Entity),
      r.from_id.bind (entity_by_id_get extra es) = some fa → fa ∈ es →
      r.to_id.bind (entity_by_id_get extra es) = some ta → ta ∈ es →
      (r ∈ rels.filter (relInEvent extra es s en) ↔ r ∈ rels ∧
        fa ∈ es.filter (inEvent s en) ∧ ta ∈ es.filter (inEvent s en))) := by
  refine ⟨?_, ?_, ?_⟩
  · intro e
    simp [List.mem_filter, inEvent, Bool.and_eq_true, decide_eq_true_iff, and_assoc]
  · intro r
    simp [List.mem_filter, relInEvent, Bool.and_eq_true, decide_eq_true_iff, and_assoc]
  · intro r fa ta hf hfm ht htm
    simp only [List.mem_filter, relInEvent, hf, ht, effStart_some, effEnd_some,
      inEvent, Bool.and_eq_true, decide_eq_true_iff]
    constructor
    · rintro ⟨hr, ⟨⟨h1, h2⟩, h3⟩, h4⟩
      exact ⟨hr, ⟨hfm, h1, h2⟩, ⟨htm, h3, h4⟩⟩
    · rintro ⟨hr, ⟨-, h1, h2⟩, -, h3, h4⟩
      exact ⟨hr, ⟨⟨h1, h2⟩, h3⟩, h4⟩

/-- The record behind the C6 counterexample: two triggers at offsets 2 and 5
and a zero-length entity at the shared boundary offset 2. -/
def c6Record : RawRecord :=
  ⟨"3", some "abcdefgh",
    some [.mk (.num 21) (some "诊疗事件触发词") (some 2) (some 3) none none,
          .mk (.num 22) (some "诊疗事件触发词") (some 5) (some 6) none none,
          .mk (.num 23) (some "症状") (some 2) (some 2) none none],
    some []⟩

/-- C6 counterexample: the zero-length entity at offset 2 is a member of the
selected entity sets of both event 1 (range `(0,2)`) and event 2 (range
`(2,5)`) — so membership is not exclusive, and under the strict half-open
reading the entity is selected for event 1 although its offsets do not lie in
`[0, 2)`. -/
theorem c6_counterexample :
    ((process_medical_record c6Record none none).evs.map
      (fun v => v.final_entities.contains
        (Entity.mk (.num 23) (some "症状") (some 2) (some 2) none none))) =
      [true, true, false] ∧
    ((process_medical_record c6Record none none).processed.events.map
      (fun ev => ev.text_range)) = [(0, 2), (2, 5), (5, 8)] :=
  ⟨rfl, rfl⟩

/-- C6 witness: the resolvable-endpoints equivalence at a concrete record. -/
theorem c6_witness :
    (⟨.num 9, some (.num 1), some (.num 2), some "组成"⟩ : Rel) ∈
      ([⟨.num 9, some (.num 1), some (.num 2), some "组成"⟩] : List Rel).filter
        (relInEvent [] [Entity.mk (.num 1) (some "症状") (some 2) (some 3) none none,
          Entity.mk (.num 2) (some "症状") (some 4) (some 5) none none] 0 9) ↔
    (⟨.num 9, some (.num 1), some (.num 2), some "组成"⟩ : Rel) ∈
        ([⟨.num 9, some (.num 1), some (.num 2), some "组成"⟩] : List Rel) ∧
      Entity.mk (.num 1) (some "症状") (some 2) (some 3) none none ∈
        ([Entity.mk (.num 1) (some "症状") (some 2) (some 3) none none,
          Entity.mk (.num 2) (some "症状") (some 4) (some 5) none none]).filter
          (inEvent 0 9) ∧
      Entity.mk (.num 2) (some "症状") (some 4) (some 5) none none ∈
        ([Entity.mk (.num 1) (some "症状") (some 2) (some 3) none none,
          Entity.mk (.num 2) (some "症状") (some 4) (some 5) none none]).filter
          (inEvent 0 9) :=
  (c6_membership [] _ _ 0 9).2.2 _ _ _ rfl (by simp) rfl (by simp)

/-- C5 (amended): a relation with an unresolvable endpoint is skipped by the
attribute-merge pass (no attachment, no error); but in event selection the
unresolvable endpoint is treated as an empty dict with effective offsets
`(0, 0)`, so such a relation is selected for exactly the events whose range
covers offset 0 (in particular the first event, whose start is 0) and can
therefore reach the output relation lists. -/
theorem c5_dangling_tolerated :
    (∀ (es : List Entity) (r : Rel),
      r.from_id.bind (lookupLast es) = none ∨ r.to_id.bind (lookupLast es) = none →
      mergeStep es r = es) ∧
    (∀ (extra : List (EId × Entity)) (es : List Entity) (rels : List Rel)
       (s en : Int) (r : Rel),
      r.from_id.bind (entity_by_id_get extra es) = none →
      r.to_id.bind (entity_by_id_get extra es) = none →
      (r ∈ rels.filter (relInEvent extra es s en) ↔ r ∈ rels ∧ (s ≤ 0 ∧ 0 ≤ en))) := by
  constructor
  · intro es r hdang
    unfold mergeStep
    rcases htype : r.type with _ | rt
    · rfl
    · simp only
      split
      · rcases hfrom : r.from_id with _ | fid
        · rfl
        · simp only
          rcases h1 : lookupLast es fid with _ | fe
          · rfl
          · rcases h2 : r.to_id.bind (lookupLast es) with _ | te
            · rfl
            · exfalso
              rcases hdang with hd | hd
              · rw [hfrom] at hd
                rw [show (some fid).bind (lookupLast es) = lookupLast es fid from rfl] at hd
                rw [hd] at h1
                cases h1
              · rw [hd] at h2
                cases h2
      · rfl
  · intro extra es rels s en r hf ht
    simp only [List.mem_filter, relInEvent, hf, ht, effStart_none, effEnd_none,
      Bool.and_eq_true, decide_eq_true_iff]
    constructor
    · rintro ⟨hr, ⟨⟨h1, h2⟩, h3⟩, h4⟩
      exact ⟨hr, h1, h2⟩
    · rintro ⟨hr, h1, h2⟩
      exact ⟨hr, ⟨⟨h1, h2⟩, h1⟩, h2⟩

/-- The record behind the C5 counterexample: one relation whose endpoints
resolve to no entity. -/
def c5Record : RawRecord :=
  ⟨"4", some "ab", some [],
    some [⟨.num 1, some (.num 5), some (.num 6), some "组成"⟩]⟩

/-- C5 counterexample: the dangling relation appears in the output treatment
relation list of event 1, contradicting "appears in no event's relation list
in the output". -/
theorem c5_counterexample :
    ((process_medical_record c5Record none none).processed.events.map
      (fun ev => ev.lunzhi.relations)) =
      [[⟨.num 1, some (.num 5), some (.num 6), some "组成"⟩]] :=
  rfl

/-- C5 witness: the amended selection rule at a concrete dangling relation. -/
theorem c5_witness :
    (⟨.num 1, some (.num 5), some (.num 6), some "组成"⟩ : Rel) ∈
      ([⟨.num 1, some (.num 5), some (.num 6), some "组成"⟩] : List Rel).filter
        (relInEvent [] [] 0 2) ↔
    (⟨.num 1, some (.num 5), some (.num 6), some "组成"⟩ : Rel) ∈
        ([⟨.num 1, some (.num 5), some (.num 6), some "组成"⟩] : List Rel) ∧
      ((0 : Int) ≤ 0 ∧ (0 : Int) ≤ 2) :=
  c5_dangling_tolerated.2 [] [] _ 0 2 _ rfl rfl

/-- The entity the 4.2 loop synthesizes when the nested span holds no
用法/剂型 attribute entity: `{"id": nid, "label": "方剂", "text": nid+"号方",
"属性": {}}`. -/
def newFangji (rid : String) (order : Nat) (seq : Nat) : Entity :=
  nfEntity rid order seq []

/-- One `unkStep` on an unknown-formula entity whose nested span holds exactly
one herb and one excipient: the unknown entity is removed, one formula entity
is appended, and exactly two freshly numbered relations (herb→formula of type
组成, then excipient→formula of type 作为辅料组成) are appended. -/
theorem unkStep_one_herb_one_excipient (rid : String) (order : Nat) (st : UnkSt)
    (U H X : Entity)
    (hN : st.evEnts.filter (fun e => !(e.id == U.id) &&
        decide (startEff U ≤ startEff e) && decide (endEff e ≤ endEff U)) = [H, X] ∨
      st.evEnts.filter (fun e => !(e.id == U.id) &&
        decide (startEff U ≤ startEff e) && decide (endEff e ≤ endEff U)) = [X, H])
    (hH : H.label = some "中药") (hX : X.label = some "辅料") :
    unkStep rid order st U =
      ⟨st.evEnts.filter (fun e => !(e.id == U.id)) ++ [newFangji rid order st.seq],
        st.evRels ++
          [⟨.num (st.relCtr + 1), some H.id,
            some (.str (fmtFangjiId rid order st.seq)), some "组成"⟩,
           ⟨.num (st.relCtr + 2), some X.id,
            some (.str (fmtFangjiId rid order st.seq)), some "作为辅料组成"⟩],
        (EId.str (fmtFangjiId rid order st.seq), newFangji rid order st.seq) :: st.extra,
        st.relCtr + 2, st.seq + 1,
        st.synths ++ [newFangji rid order st.seq],
        st.newRels ++
          [⟨.num (st.relCtr + 1), some H.id,
            some (.str (fmtFangjiId rid order st.seq)), some "组成"⟩,
           ⟨.num (st.relCtr + 2), some X.id,
            some (.str (fmtFangjiId rid order st.seq)), some "作为辅料组成"⟩]⟩ := by
  have hHmem : H ∈ st.evEnts ∧ (!(H.id == U.id)) = true := by
    have hsome : H ∈ st.evEnts.filter (fun e => !(e.id == U.id) &&
        decide (startEff U ≤ startEff e) && decide (endEff e ≤ endEff U)) := by
      rcases hN with hn | hn <;> rw [hn] <;> simp
    have hm := List.mem_filter.1 hsome
    have hm2 := hm.2
    simp only [Bool.and_eq_true] at hm2
    exact ⟨hm.1, hm2.1.1⟩
  have hXmem : X ∈ st.evEnts ∧ (!(X.id == U.id)) = true := by
    have hsome : X ∈ st.evEnts.filter (fun e => !(e.id == U.id) &&
        decide (startEff U ≤ startEff e) && decide (endEff e ≤ endEff U)) := by
      rcases hN with hn | hn <;> rw [hn] <;> simp
    have hm := List.mem_filter.1 hsome
    have hm2 := hm.2
    simp only [Bool.and_eq_true] at hm2
    exact ⟨hm.1, hm2.1.1⟩
  have hHin : H ∈ st.evEnts.filter (fun e => !(e.id == U.id)) :=
    List.mem_filter.2 ⟨hHmem.1, hHmem.2⟩
  have hXin : X ∈ st.evEnts.filter (fun e => !(e.id == U.id)) :=
    List.mem_filter.2 ⟨hXmem.1, hXmem.2⟩
  have hz1 : (H.label == some "中药") = true := by rw [hH]; rfl
  have hz2 : (H.label == some "辅料") = false := by rw [hH]; rfl
  have hz3 : (H.label == some "用法") = false := by rw [hH]; rfl
  have hz4 : (H.label == some "剂型") = false := by rw [hH]; rfl
  have hf1 : (X.label == some "中药") = false := by rw [hX]; rfl
  have hf2 : (X.label == some "辅料") = true := by rw [hX]; rfl
  have hf3 : (X.label == some "用法") = false := by rw [hX]; rfl
  have hf4 : (X.label == some "剂型") = false := by rw [hX]; rfl
  have hcontH : (st.evEnts.filter (fun e => !(e.id == U.id)) ++
      [newFangji rid order st.seq]).contains H = true :=
    contains_of_mem (List.mem_append_left _ hHin)
  have hcontX : (st.evEnts.filter (fun e => !(e.id == U.id)) ++
      [newFangji rid order st.seq]).contains X = true :=
    contains_of_mem (List.mem_append_left _ hXin)
  rcases hN with hn | hn <;>
  · unfold unkStep
    dsimp only
    rw [hn]
    simp only [List.filter_cons, List.filter_nil, List.foldl_cons, List.foldl_nil,
      hz1, hz2, hz3, hz4, hf1, hf2, hf3, hf4, Bool.false_or, Bool.or_false,
      if_true, if_false, Bool.false_eq_true, compStep]
    rw [show nfEntity rid order st.seq [] = newFangji rid order st.seq from rfl]
    simp only [hcontH, hcontX, if_true, List.append_assoc, List.cons_append,
      List.nil_append]
    have hctr : st.relCtr + 1 + 1 = st.relCtr + 2 := by omega
    rw [hctr]

/-- C2: when an event's entity list holds exactly one 未知方剂 entity `U`,
and the entities spatially nested in `U`'s span are exactly one herb `H` and
one excipient `X`, pass 4.2 synthesizes exactly one formula entity (with the
per-event sequence number 1), appends exactly two relations with freshly
allocated identifiers — 组成 from the herb and 作为辅料组成 from the
excipient, both into the new formula — and `U` is absent from the event's
final entity list. -/
theorem c2_unknown_formula_synthesis (rid : String) (order : Nat)
    (evEnts : List Entity) (evRels : List Rel) (extra : List (EId × Entity))
    (c : Int) (U H X : Entity)
    (hU : evEnts.filter (fun e => e.label == some "未知方剂") = [U])
    (hN : evEnts.filter (fun e => !(e.id == U.id) &&
        decide (startEff U ≤ startEff e) && decide (endEff e ≤ endEff U)) = [H, X] ∨
      evEnts.filter (fun e => !(e.id == U.id) &&
        decide (startEff U ≤ startEff e) && decide (endEff e ≤ endEff U)) = [X, H])
    (hH : H.label = some "中药") (hX : X.label = some "辅料") :
    process_unknowns rid order evEnts evRels extra c =
      ⟨evEnts.filter (fun e => !(e.id == U.id)) ++ [newFangji rid order 1],
        evRels ++
          [⟨.num (c + 1), some H.id, some (.str (fmtFangjiId rid order 1)), some "组成"⟩,
           ⟨.num (c + 2), some X.id, some (.str (fmtFangjiId rid order 1)),
             some "作为辅料组成"⟩],
        (EId.str (fmtFangjiId rid order 1), newFangji rid order 1) :: extra,
        c + 2, 2, [newFangji rid order 1],
        [⟨.num (c + 1), some H.id, some (.str (fmtFangjiId rid order 1)), some "组成"⟩,
         ⟨.num (c + 2), some X.id, some (.str (fmtFangjiId rid order 1)),
           some "作为辅料组成"⟩]⟩ ∧
    U ∉ (process_unknowns rid order evEnts evRels extra c).evEnts := by
  have hrun : process_unknowns rid order evEnts evRels extra c =
      unkStep rid order ⟨evEnts, evRels, extra, c, 1, [], []⟩ U := by
    unfold process_unknowns
    rw [hU]
    rfl
  have hstep := unkStep_one_herb_one_excipient rid order
    ⟨evEnts, evRels, extra, c, 1, [], []⟩ U H X hN hH hX
  have hUlab : U.label = some "未知方剂" := by
    have hUf : U ∈ evEnts.filter (fun e => e.label == some "未知方剂") := by
      rw [hU]; simp
    have := (List.mem_filter.1 hUf).2
    simpa using this
  constructor
  · rw [hrun, hstep]
    rfl
  · rw [hrun, hstep]
    intro hmem
    rcases List.mem_append.1 hmem with hmem | hmem
    · have := (List.mem_filter.1 hmem).2
      simp at this
    · have hUeq : U = newFangji rid order 1 := by simpa using hmem
      have : U.label = some "方剂" := by rw [hUeq]; rfl
      rw [hUlab] at this
      exact absurd this (by decide)

/-- C2 witness: the theorem at a concrete event with one nested herb and one
nested excipient inside one unknown-formula span. -/
theorem c2_witness :
    (process_unknowns "7" 1
      [Entity.mk (.num 10) (some "未知方剂") (some 2) (some 8) none none,
       Entity.mk (.num 11) (some "中药") (some 3) (some 4) none none,
       Entity.mk (.num 12) (some "辅料") (some 5) (some 6) none none] [] [] 0).synths =
      [newFangji "7" 1 1] ∧
    Entity.mk (.num 10) (some "未知方剂") (some 2) (some 8) none none ∉
      (process_unknowns "7" 1
        [Entity.mk (.num 10) (some "未知方剂") (some 2) (some 8) none none,
         Entity.mk (.num 11) (some "中药") (some 3) (some 4) none none,
         Entity.mk (.num 12) (some "辅料") (some 5) (some 6) none none] [] [] 0).evEnts := by
  have h := c2_unknown_formula_synthesis "7" 1
    [Entity.mk (.num 10) (some "未知方剂") (some 2) (some 8) none none,
     Entity.mk (.num 11) (some "中药") (some 3) (some 4) none none,
     Entity.mk (.num 12) (some "辅料") (some 5) (some 6) none none] [] [] 0
    (Entity.mk (.num 10) (some "未知方剂") (some 2) (some 8) none none)
    (Entity.mk (.num 11) (some "中药") (some 3) (some 4) none none)
    (Entity.mk (.num 12) (some "辅料") (some 5) (some 6) none none)
    (by rfl) (Or.inl (by rfl)) rfl rfl
  exact ⟨by rw [h.1], h.2⟩

/-! ### Decimal rendering facts, for the synthesized-id format -/

/-- Value of a decimal digit character. -/
def chVal (c : Char) : Nat := c.toNat - '0'.toNat

/-- Left-to-right evaluation of a digit string with accumulator `a`. -/
def valOf : Nat → List Char → Nat
  | a, [] => a
  | a, c :: cs => valOf (10 * a + chVal c) cs

/-- Number given by `a` followed by the decimal digits of `n`. -/
def pushNum (a : Nat) (n : Nat) : Nat :=
  if n < 10 then 10 * a + n else 10 * pushNum a (n / 10) + n % 10
termination_by n
decreasing_by
  exact Nat.div_lt_self (by omega) (by omega)

theorem digitChar_val (d : Nat) (h : d < 10) :
    chVal (Nat.digitChar d) = d ∧ Nat.digitChar d ≠ '-' := by
  interval_cases d <;> exact ⟨by decide, by decide⟩

theorem valOf_toDigitsCore : ∀ (f n a : Nat) (ds : List Char), n < f →
    valOf a (Nat.toDigitsCore 10 f n ds) = valOf (pushNum a n) ds
  | 0, n, a, ds => by
    intro h
    exact absurd h (Nat.not_lt_zero n)
  | f + 1, n, a, ds => by
    intro h
    by_cases hdiv : n / 10 = 0
    · have hn : n < 10 := by omega
      simp only [Nat.toDigitsCore, hdiv, if_true]
      show valOf (10 * a + chVal (Nat.digitChar (n % 10))) ds = valOf (pushNum a n) ds
      rw [(digitChar_val (n % 10) (Nat.mod_lt n (by omega))).1, Nat.mod_eq_of_lt hn,
        show pushNum a n = 10 * a + n from by rw [pushNum]; simp [hn]]
    · have hge : 10 ≤ n := by omega
      simp only [Nat.toDigitsCore, hdiv, if_false]
      have hlt : n / 10 < f := lt_of_lt_of_le
        (Nat.div_lt_self (by omega) (by omega)) (Nat.lt_succ_iff.1 h)
      rw [valOf_toDigitsCore f (n / 10) a _ hlt]
      show valOf (10 * pushNum a (n / 10) + chVal (Nat.digitChar (n % 10))) ds =
        valOf (pushNum a n) ds
      rw [(digitChar_val (n % 10) (Nat.mod_lt n (by omega))).1,
        show pushNum a n = 10 * pushNum a (n / 10) + n % 10 from by
          rw [pushNum]
          simp [show ¬ n < 10 by omega]]

theorem pushNum_zero (n : Nat) : pushNum 0 n = n := by
  induction n using Nat.strong_induction_on with
  | _ n ih =>
    rw [pushNum]
    split
    · omega
    · rw [ih (n / 10) (Nat.div_lt_self (by omega) (by omega))]
      omega

theorem repr_data (n : Nat) : (Nat.repr n).data = Nat.toDigits 10 n := rfl

theorem valOf_repr (n : Nat) : valOf 0 (Nat.repr n).data = n := by
  have h1 : (Nat.repr n).data = Nat.toDigitsCore 10 (n + 1) n [] := rfl
  rw [h1, valOf_toDigitsCore (n + 1) n 0 [] (Nat.lt_succ_self n)]
  exact pushNum_zero n

theorem toDigitsCore_no_dash : ∀ (f n : Nat) (ds : List Char),
    (∀ c ∈ ds, c ≠ '-') → ∀ c ∈ Nat.toDigitsCore 10 f n ds, c ≠ '-'
  | 0, n, ds => by
    intro hds c hc
    exact hds c hc
  | f + 1, n, ds => by
    intro hds c hc
    have hd : Nat.digitChar (n % 10) ≠ '-' :=
      (digitChar_val (n % 10) (Nat.mod_lt n (by omega))).2
    by_cases hdiv : n / 10 = 0
    · simp only [Nat.toDigitsCore, hdiv, if_true] at hc
      rcases List.mem_cons.1 hc with rfl | hc
      · exact hd
      · exact hds c hc
    · simp only [Nat.toDigitsCore, hdiv, if_false] at hc
      refine toDigitsCore_no_dash f (n / 10) _ ?_ c hc
      intro x hx
      rcases List.mem_cons.1 hx with rfl | hx
      · exact hd
      · exact hds x hx

theorem repr_no_dash (n : Nat) : ∀ c ∈ (Nat.repr n).data, c ≠ '-' := by
  rw [repr_data]
  unfold Nat.toDigits
  exact toDigitsCore_no_dash (n + 1) n [] (by simp)

/-- Splitting a char list at a separator absent from both prefixes. -/
theorem append_dash_inj : ∀ (a1 a2 b1 b2 : List Char),
    (∀ c ∈ a1, c ≠ '-') → (∀ c ∈ a2, c ≠ '-') →
    a1 ++ '-' :: b1 = a2 ++ '-' :: b2 → a1 = a2 ∧ b1 = b2
  | [], [], b1, b2 => by
    intro _ _ h
    simpa using h
  | [], c :: a2, b1, b2 => by
    intro _ h2 h
    simp only [List.nil_append, List.cons_append, List.cons.injEq] at h
    exact absurd h.1.symm (h2 c (by simp))
  | c :: a1, [], b1, b2 => by
    intro h1 _ h
    simp only [List.nil_append, List.cons_append, List.cons.injEq] at h
    exact absurd h.1 (h1 c (by simp))
  | c1 :: a1, c2 :: a2, b1, b2 => by
    intro h1 h2 h
    simp only [List.cons_append, List.cons.injEq] at h
    obtain ⟨ha, hb⟩ := append_dash_inj a1 a2 b1 b2
      (fun x hx => h1 x (by simp [hx])) (fun x hx => h2 x (by simp [hx])) h.2
    exact ⟨by rw [h.1, ha], hb⟩

/-- The synthesized-formula id format is injective in the event ordinal and
per-event sequence number, for a fixed record id. -/
theorem fmtFangjiId_inj (rid : String) (o1 s1 o2 s2 : Nat)
    (h : fmtFangjiId rid o1 s1 = fmtFangjiId rid o2 s2) : o1 = o2 ∧ s1 = s2 := by
  unfold fmtFangjiId at h
  have hd := congrArg String.data h
  simp only [String.data_append, List.append_assoc] at hd
  have hd2 : (Nat.repr o1).data ++ '-' :: (Nat.repr s1).data =
      (Nat.repr o2).data ++ '-' :: (Nat.repr s2).data := by
    have := List.append_cancel_left hd
    simpa using this
  obtain ⟨ho, hs⟩ := append_dash_inj _ _ _ _ (repr_no_dash o1) (repr_no_dash o2) hd2
  constructor
  · have := congrArg (valOf 0) ho
    simpa [valOf_repr] using this
  · have := congrArg (valOf 0) hs
    simpa [valOf_repr] using this

/-! ### C3: the synthesized-formula identifier discipline -/

@[simp] theorem nfEntity_id (rid : String) (order seq : Nat) (fa : List (String × Entity)) :
    (nfEntity rid order seq fa).id = EId.str (fmtFangjiId rid order seq) := rfl

theorem unkStep_seq (rid : String) (o : Nat) (st : UnkSt) (u : Entity) :
    (unkStep rid o st u).seq = st.seq + 1 := rfl

theorem unkStep_synths_map (rid : String) (o : Nat) (st : UnkSt) (u : Entity) :
    ((unkStep rid o st u).synths).map Entity.id =
      st.synths.map Entity.id ++ [EId.str (fmtFangjiId rid o st.seq)] := by
  show ((st.synths ++ [nfEntity rid o st.seq _]).map Entity.id) = _
  simp

theorem foldl_unkStep_synths (rid : String) (o : Nat) :
    ∀ (unks : List Entity) (st : UnkSt),
    ((unks.foldl (unkStep rid o) st).synths).map Entity.id =
      st.synths.map Entity.id ++
        (List.range unks.length).map (fun j => EId.str (fmtFangjiId rid o (st.seq + j)))
  | [], st => by simp
  | u :: us, st => by
    rw [List.foldl_cons, foldl_unkStep_synths rid o us (unkStep rid o st u),
      unkStep_synths_map, unkStep_seq, List.append_assoc]
    congr 1
    rw [List.length_cons, List.range_succ_eq_map]
    simp only [List.map_cons, List.map_map, Nat.add_zero, List.cons_append,
      List.nil_append, List.singleton_append]
    congr 1
    refine List.map_congr_left ?_
    intro j _
    show EId.str (fmtFangjiId rid o (st.seq + 1 + j)) =
      EId.str (fmtFangjiId rid o (st.seq + (j + 1)))
    rw [show st.seq + 1 + j = st.seq + (j + 1) from by omega]

theorem process_unknowns_synths_map (rid : String) (o : Nat) (evEnts : List Entity)
    (evRels : List Rel) (extra : List (EId × Entity)) (c : Int) :
    ((process_unknowns rid o evEnts evRels extra c).synths).map Entity.id =
      (List.range ((process_unknowns rid o evEnts evRels extra c).synths.length)).map
        (fun j => EId.str (fmtFangjiId rid o (1 + j))) := by
  have hlen : (process_unknowns rid o evEnts evRels extra c).synths.length =
      (evEnts.filter (fun e => e.label == some "未知方剂")).length := by
    have := congrArg List.length (foldl_unkStep_synths rid o
      (evEnts.filter (fun e => e.label == some "未知方剂"))
      ⟨evEnts, evRels, extra, c, 1, [], []⟩)
    simpa [process_unknowns] using this
  rw [hlen]
  unfold process_unknowns
  rw [foldl_unkStep_synths]
  simp

theorem process_event_synths_map (rid : String) (text : String) (pat : Option Entity)
    (rels : List Rel) (es : List Entity) (extra : List (EId × Entity)) (c : Int)
    (o : Nat) (b : Int × Int) :
    (((process_event rid text pat rels es extra c o b).1.synths).map Entity.id) =
      (List.range ((process_event rid text pat rels es extra c o b).1.synths.length)).map
        (fun j => EId.str (fmtFangjiId rid o (1 + j))) :=
  process_unknowns_synths_map rid o _ _ extra c

/-- Every event the loop emits carries synthesized ids
`{rid}-{order}-{seq}` with `order` its 1-based position and `seq` counting from
1 within the event. -/
theorem process_events_synths (rid : String) (text : String) (pat : Option Entity)
    (rels : List Rel) :
    ∀ (bounds : List (Int × Int)) (o : Nat) (es : List Entity)
      (extra : List (EId × Entity)) (c : Int),
    ∀ p ∈ List.enumFrom o (process_events rid text pat rels bounds o es extra c).1,
      (p.2.synths).map Entity.id =
        (List.range p.2.synths.length).map (fun j => EId.str (fmtFangjiId rid p.1 (1 + j)))
  | [], o, es, extra, c => by
    intro p hp
    simp [process_events] at hp
  | b :: bs, o, es, extra, c => by
    intro p hp
    have hp2 : p = (o, (process_event rid text pat rels es extra c o b).1) ∨
        p ∈ List.enumFrom (o + 1) (process_events rid text pat rels bs (o + 1)
          (process_event rid text pat rels es extra c o b).2.1
          (process_event rid text pat rels es extra c o b).2.2.1
          (process_event rid text pat rels es extra c o b).2.2.2).1 := by
      simpa [process_events, List.enumFrom] using hp
    rcases hp2 with rfl | hp2
    · exact process_event_synths_map rid text pat rels es extra c o b
    · exact process_events_synths rid text pat rels bs (o + 1) _ _ _ p hp2

/-- Across the event loop starting at ordinal `o`, the synthesized ids are
pairwise distinct, and each is `{rid}-{o'}-{s}` for some event ordinal
`o' ≥ o`. -/
theorem process_events_synth_flat (rid : String) (text : String) (pat : Option Entity)
    (rels : List Rel) :
    ∀ (bounds : List (Int × Int)) (o : Nat) (es : List Entity)
      (extra : List (EId × Entity)) (c : Int),
    (((process_events rid text pat rels bounds o es extra c).1.flatMap
        (fun v => v.synths.map Entity.id)).Nodup) ∧
    (∀ x ∈ (process_events rid text pat rels bounds o es extra c).1.flatMap
        (fun v => v.synths.map Entity.id),
      ∃ o' s, o ≤ o' ∧ x = EId.str (fmtFangjiId rid o' s))
  | [], o, es, extra, c => by
    constructor
    · simp [process_events]
    · intro x hx
      simp [process_events] at hx
  | b :: bs, o, es, extra, c => by
    have ih := process_events_synth_flat rid text pat rels bs (o + 1)
      (process_event rid text pat rels es extra c o b).2.1
      (process_event rid text pat rels es extra c o b).2.2.1
      (process_event rid text pat rels es extra c o b).2.2.2
    have hflat : (process_events rid text pat rels (b :: bs) o es extra c).1.flatMap
        (fun v => v.synths.map Entity.id) =
      ((process_event rid text pat rels es extra c o b).1.synths.map Entity.id) ++
        ((process_events rid text pat rels bs (o + 1)
          (process_event rid text pat rels es extra c o b).2.1
          (process_event rid text pat rels es extra c o b).2.2.1
          (process_event rid text pat rels es extra c o b).2.2.2).1.flatMap
            (fun v => v.synths.map Entity.id)) := by
      simp [process_events]
    have hinj : Function.Injective (fun j => EId.str (fmtFangjiId rid o (1 + j))) := by
      intro a b h
      simp only [EId.str.injEq] at h
      have := (fmtFangjiId_inj rid o (1 + a) o (1 + b) h).2
      omega
    have hhead : ∀ x ∈ (process_event rid text pat rels es extra c o b).1.synths.map
        Entity.id, ∃ s, x = EId.str (fmtFangjiId rid o s) := by
      intro x hx
      rw [process_event_synths_map] at hx
      obtain ⟨j, _, rfl⟩ := List.mem_map.1 hx
      exact ⟨1 + j, rfl⟩
    constructor
    · rw [hflat]
      refine List.Nodup.append ?_ ih.1 ?_
      · rw [process_event_synths_map]
        exact (List.nodup_range _).map hinj
      · intro x hx1 hx2
        obtain ⟨s, hxeq⟩ := hhead x hx1
        obtain ⟨o', s', ho', heq⟩ := ih.2 x hx2
        have hcomb : EId.str (fmtFangjiId rid o s) = EId.str (fmtFangjiId rid o' s') :=
          hxeq.symm.trans heq
        simp only [EId.str.injEq] at hcomb
        have := (fmtFangjiId_inj rid o s o' s' hcomb).1
        omega
    · intro x hx
      rw [hflat] at hx
      rcases List.mem_append.1 hx with hx | hx
      · obtain ⟨s, rfl⟩ := hhead x hx
        exact ⟨o, s, le_refl o, rfl⟩
      · obtain ⟨o', s', ho', heq⟩ := ih.2 x hx
        exact ⟨o', s', by omega, heq⟩

/-- C3: every synthesized formula entity of event ordinal `order` (1-based, in
boundary order) has identifier `{record_id}-{order}-{seq}` with `seq` counting
1, 2, ... within the event and restarting at 1 for every event; consequently
the synthesized identifiers are pairwise distinct within a record. -/
theorem c3_synthesized_ids (r : RawRecord) (gp : Option Entity)
    (copt : Option Counters) :
    (∀ p ∈ List.enumFrom 1 (process_medical_record r gp copt).evs,
      (p.2.synths).map Entity.id =
        (List.range p.2.synths.length).map
          (fun j => EId.str (fmtFangjiId r.id p.1 (1 + j)))) ∧
    ((process_medical_record r gp copt).evs.flatMap
      (fun v => v.synths.map Entity.id)).Nodup := by
  constructor
  · intro p hp
    exact process_events_synths r.id (r.text.getD "") (rec_merged r gp).2
      (r.relations.getD [])
      (event_boundaries (rec_merged r gp).1 (((r.text.getD "").length : Int)))
      1 (rec_merged r gp).1 [] (rec_counters0 r copt).relation p hp
  · exact (process_events_synth_flat r.id (r.text.getD "") (rec_merged r gp).2
      (r.relations.getD [])
      (event_boundaries (rec_merged r gp).1 (((r.text.getD "").length : Int)))
      1 (rec_merged r gp).1 [] (rec_counters0 r copt).relation).1

/-- C3 witness: the id equation at event 1 of a concrete synthesizing record. -/
theorem c3_witness :
    (((List.enumFrom 1 (process_medical_record synthRecord none none).evs).get
        ⟨0, by decide⟩).2.synths).map Entity.id =
      (List.range ((List.enumFrom 1
          (process_medical_record synthRecord none none).evs).get
            ⟨0, by decide⟩).2.synths.length).map
        (fun j => EId.str (fmtFangjiId synthRecord.id ((List.enumFrom 1
          (process_medical_record synthRecord none none).evs).get ⟨0, by decide⟩).1
            (1 + j))) :=
  (c3_synthesized_ids synthRecord none none).1 _ (List.get_mem _ 0 (by decide))

/-! ### C8: relation-counter threading -/

theorem foldl_compStep_delta (nfid : EId) (ty : String) :
    ∀ (l : List Entity) (acc : List Entity × List Rel × Int × List Rel),
    ∃ Δ : List Rel,
      (l.foldl (compStep nfid ty) acc).2.2.2 = acc.2.2.2 ++ Δ ∧
      (l.foldl (compStep nfid ty) acc).2.2.1 = acc.2.2.1 + (Δ.length : Int)
  | [], acc => ⟨[], by simp⟩
  | e :: t, acc => by
    obtain ⟨Δ, h1, h2⟩ := foldl_compStep_delta nfid ty t (compStep nfid ty acc e)
    refine ⟨⟨.num (acc.2.2.1 + 1), some e.id, some nfid, some ty⟩ :: Δ, ?_, ?_⟩
    · rw [List.foldl_cons, h1]
      show (acc.2.2.2 ++ [(⟨.num (acc.2.2.1 + 1), some e.id, some nfid, some ty⟩ : Rel)])
        ++ Δ = _
      simp
    · rw [List.foldl_cons, h2]
      show acc.2.2.1 + 1 + (Δ.length : Int) = _
      simp only [List.length_cons]
      push_cast
      omega

theorem foldl2_compStep_delta (f1 f2 : EId) (t1 t2 : String) (l1 l2 : List Entity)
    (acc : List Entity × List Rel × Int × List Rel) :
    ∃ Δ : List Rel,
      (l2.foldl (compStep f2 t2) (l1.foldl (compStep f1 t1) acc)).2.2.2 =
        acc.2.2.2 ++ Δ ∧
      (l2.foldl (compStep f2 t2) (l1.foldl (compStep f1 t1) acc)).2.2.1 =
        acc.2.2.1 + (Δ.length : Int) := by
  obtain ⟨Δ1, h11, h12⟩ := foldl_compStep_delta f1 t1 l1 acc
  obtain ⟨Δ2, h21, h22⟩ := foldl_compStep_delta f2 t2 l2 (l1.foldl (compStep f1 t1) acc)
  refine ⟨Δ1 ++ Δ2, ?_, ?_⟩
  · rw [h21, h11]
    simp
  · rw [h22, h12]
    simp only [List.length_append]
    push_cast
    omega

theorem unkStep_delta (rid : String) (o : Nat) (st : UnkSt) (u : Entity) :
    ∃ Δ : List Rel, (unkStep rid o st u).newRels = st.newRels ++ Δ ∧
      (unkStep rid o st u).relCtr = st.relCtr + (Δ.length : Int) :=
  foldl2_compStep_delta _ _ _ _ _ _ _

theorem foldl_unkStep_delta (rid : String) (o : Nat) :
    ∀ (unks : List Entity) (st : UnkSt),
    ∃ Δ : List Rel,
      (unks.foldl (unkStep rid o) st).newRels = st.newRels ++ Δ ∧
      (unks.foldl (unkStep rid o) st).relCtr = st.relCtr + (Δ.length : Int)
  | [], st => ⟨[], by simp⟩
  | u :: us, st => by
    obtain ⟨Δ1, h11, h12⟩ := unkStep_delta rid o st u
    obtain ⟨Δ2, h21, h22⟩ := foldl_unkStep_delta rid o us (unkStep rid o st u)
    refine ⟨Δ1 ++ Δ2, ?_, ?_⟩
    · rw [List.foldl_cons, h21, h11]
      simp
    · rw [List.foldl_cons, h22, h12]
      simp only [List.length_append]
      push_cast
      omega

theorem process_unknowns_ctr (rid : String) (o : Nat) (evEnts : List Entity)
    (evRels : List Rel) (extra : List (EId × Entity)) (c : Int) :
    (process_unknowns rid o evEnts evRels extra c).relCtr =
      c + (((process_unknowns rid o evEnts evRels extra c).newRels.length : Int)) := by
  unfold process_unknowns
  obtain ⟨Δ, h1, h2⟩ := foldl_unkStep_delta rid o
    (evEnts.filter (fun e => e.label == some "未知方剂"))
    ⟨evEnts, evRels, extra, c, 1, [], []⟩
  rw [h2, h1]
  simp

theorem process_event_ctr (rid : String) (text : String) (pat : Option Entity)
    (rels : List Rel) (es : List Entity) (extra : List (EId × Entity)) (c : Int)
    (o : Nat) (b : Int × Int) :
    (process_event rid text pat rels es extra c o b).2.2.2 =
      c + (((process_event rid text pat rels es extra c o b).1.newRels.length : Int)) :=
  process_unknowns_ctr rid o _ _ extra c

theorem process_events_ctr (rid : String) (text : String) (pat : Option Entity)
    (rels : List Rel) :
    ∀ (bounds : List (Int × Int)) (o : Nat) (es : List Entity)
      (extra : List (EId × Entity)) (c : Int),
    (process_events rid text pat rels bounds o es extra c).2.2.2 =
      c + ((((process_events rid text pat rels bounds o es extra c).1.map
        (fun v => v.newRels.length)).sum : Int))
  | [], o, es, extra, c => by simp [process_events]
  | b :: bs, o, es, extra, c => by
    have ih := process_events_ctr rid text pat rels bs (o + 1)
      (process_event rid text pat rels es extra c o b).2.1
      (process_event rid text pat rels es extra c o b).2.2.1
      (process_event rid text pat rels es extra c o b).2.2.2
    have hev := process_event_ctr rid text pat rels es extra c o b
    show (process_events rid text pat rels bs (o + 1)
      (process_event rid text pat rels es extra c o b).2.1
      (process_event rid text pat rels es extra c o b).2.2.1
      (process_event rid text pat rels es extra c o b).2.2.2).2.2.2 =
      c + ((((process_event rid text pat rels es extra c o b).1 ::
      (process_events rid text pat rels bs (o + 1)
        (process_event rid text pat rels es extra c o b).2.1
        (process_event rid text pat rels es extra c o b).2.2.1
        (process_event rid text pat rels es extra c o b).2.2.2).1).map
          (fun v => v.newRels.length)).sum : Int)
    rw [ih]
    simp only [List.map_cons, List.sum_cons]
    omega

/-- C8: the relation counter is used as supplied (or seeded from the maximum
integer relation id when `None` is passed), each synthesized composition
relation increments it by one, the record hands the final value back, and the
driver that threads the counters through a file never decreases it. -/
theorem c8_relation_counter :
    (∀ (r : RawRecord) (gp : Option Entity) (c : Counters),
      (process_medical_record r gp (some c)).id_counters.relation =
        c.relation + ((((process_medical_record r gp (some c)).evs.map
          (fun v => v.newRels.length)).sum : Int))) ∧
    (∀ (r : RawRecord) (gp : Option Entity),
      (process_medical_record r gp none).id_counters.relation =
        maxIntIds ((r.relations.getD []).map Rel.id) +
          ((((process_medical_record r gp none).evs.map
            (fun v => v.newRels.length)).sum : Int))) ∧
    (∀ (rs : List RawRecord) (gp : Option Entity) (c : Counters),
      c.relation ≤ (run_records rs gp c).2.2.relation) := by
  have hrec : ∀ (r : RawRecord) (gp : Option Entity) (copt : Option Counters),
      (process_medical_record r gp copt).id_counters.relation =
        (rec_counters0 r copt).relation +
          ((((process_medical_record r gp copt).evs.map
            (fun v => v.newRels.length)).sum : Int)) := by
    intro r gp copt
    exact process_events_ctr r.id (r.text.getD "") (rec_merged r gp).2
      (r.relations.getD [])
      (event_boundaries (rec_merged r gp).1 (((r.text.getD "").length : Int)))
      1 (rec_merged r gp).1 [] (rec_counters0 r copt).relation
  refine ⟨fun r gp c => hrec r gp (some c), fun r gp => hrec r gp none, ?_⟩
  intro rs
  induction rs with
  | nil =>
    intro gp c
    exact le_refl _
  | cons r rest ih =>
    intro gp c
    refine le_trans ?_ (ih _ (process_medical_record r gp (some c)).id_counters)
    rw [hrec r gp (some c)]
    have : (0 : Int) ≤ ((((process_medical_record r gp (some c)).evs.map
        (fun v => v.newRels.length)).sum : Int)) := by
      refine List.sum_nonneg ?_
      intro x hx
      obtain ⟨v, -, rfl⟩ := List.mem_map.1 hx
      exact Int.natCast_nonneg _
    have h0 : (rec_counters0 r (some c)).relation = c.relation := rfl
    omega

/-! ### C9: trigger entities never appear in argument groups -/

/-- Membership in the assembled 辨证论元 entity list (lines 182-184): either a
patient/symptom/pathogenesis-filtered entity, or the appended resolved
patient. -/
theorem mem_bz_cases (L bz0 : List Entity) (pat : Option Entity)
    (hL : L = (if bz0.any (fun x => x.label == some "患者") = true then bz0
      else match pat with
        | some p => bz0 ++ [p]
        | none => bz0)) (e : Entity) (he : e ∈ L) :
    e ∈ bz0 ∨ ∃ p, pat = some p ∧ e = p := by
  subst hL
  split at he
  · exact Or.inl he
  · rcases pat with _ | p
    · exact Or.inl he
    · rcases List.mem_append.1 he with h | h
      · exact Or.inl h
      · exact Or.inr ⟨p, rfl, by simpa using h⟩

/-- The resolved patient of a record is either labelled 患者 (a local one) or
carries the label of the inherited patient. -/
theorem rec_merged_patient_label (r : RawRecord) (gp : Option Entity) :
    ∀ p, (rec_merged r gp).2 = some p →
      p.label = some "患者" ∨ (∃ g, gp = some g ∧ p.label = g.label) := by
  unfold rec_merged
  intro p hp
  rcases hfind : (merge_drug_attrs (r.entities.getD []) (r.relations.getD [])).find?
      (fun e => e.label == some "患者") with _ | q
  · have h3 := merge_patient_attrs_snd_nolocal _ gp hfind
    rcases gp with _ | g
    · rw [h3.2.1 rfl] at hp
      cases hp
    · obtain ⟨q2, hq2, hcore⟩ := h3.2.2 g rfl
      rw [hq2] at hp
      injection hp with h
      subst h
      exact Or.inr ⟨g, rfl, Entity.label_of_core hcore⟩
  · obtain ⟨q2, hq2, hcore⟩ := merge_patient_attrs_snd_local _ gp q hfind
    rw [hq2] at hp
    injection hp with h
    subst h
    have hq : q.label = some "患者" := by
      have := List.find?_some hfind
      simpa using this
    exact Or.inl ((Entity.label_of_core hcore).trans hq)

/-- C9: no trigger-labelled entity is ever emitted in any of the three
argument groups of any produced event, provided the carried-forward patient
(if any) is not trigger-labelled (the driver only ever carries
patient-labelled entities). -/
theorem c9_no_trigger_arguments (r : RawRecord) (gp : Option Entity)
    (copt : Option Counters)
    (hgp : ∀ g, gp = some g → ¬ g.label = some "诊疗事件触发词") :
    ∀ ev ∈ (process_medical_record r gp copt).processed.events,
      (∀ e ∈ ev.bianzhen.entities, ¬ e.label = some "诊疗事件触发词") ∧
      (∀ e ∈ ev.lunzhi.entities, ¬ e.label = some "诊疗事件触发词") ∧
      (∀ e ∈ ev.lilun.entities, ¬ e.label = some "诊疗事件触发词") := by
  have hpat : ∀ p, (rec_merged r gp).2 = some p →
      ¬ p.label = some "诊疗事件触发词" := by
    intro p hp hcontra
    rcases rec_merged_patient_label r gp p hp with h | ⟨g, hg, h⟩
    · rw [hcontra] at h
      exact absurd h (by decide)
    · exact hgp g hg (h ▸ hcontra)
  intro ev hev
  obtain ⟨v, hv, rfl⟩ := List.mem_map.1
    (show ev ∈ (rec_loop r gp copt).1.map (fun v => v.event) from hev)
  refine process_events_forall r.id (r.text.getD "") (rec_merged r gp).2
    (r.relations.getD [])
    (fun evo =>
      (∀ e ∈ evo.bianzhen.entities, ¬ e.label = some "诊疗事件触发词") ∧
      (∀ e ∈ evo.lunzhi.entities, ¬ e.label = some "诊疗事件触发词") ∧
      (∀ e ∈ evo.lilun.entities, ¬ e.label = some "诊疗事件触发词"))
    ?_ _ _ _ _ _ v
    (show v ∈ (process_events r.id (r.text.getD "") (rec_merged r gp).2
      (r.relations.getD [])
      (event_boundaries (rec_merged r gp).1 (((r.text.getD "").length : Int)))
      1 (rec_merged r gp).1 [] (rec_counters0 r copt).relation).1 from hv)
  intro es extra c o b
  refine ⟨?_, ?_, ?_⟩
  · intro e he
    rcases mem_bz_cases _ _ (rec_merged r gp).2 rfl e he with h | ⟨p, hp, rfl⟩
    · have hb := (List.mem_filter.1 (show e ∈ List.filter _ _ from h)).2
      simp only [Bool.or_eq_true, beq_iff_eq] at hb
      intro hcontra
      rw [hcontra] at hb
      rcases hb with (h1 | h1) | h1 <;> exact absurd h1 (by decide)
    · exact hpat _ hp
  · intro e he
    have hb := (List.mem_filter.1 (show e ∈ List.filter _ _ from he)).2
    simp only [Bool.or_eq_true, beq_iff_eq] at hb
    intro hcontra
    rw [hcontra] at hb
    rcases hb with ((h1 | h1) | h1) | h1 <;> exact absurd h1 (by decide)
  · intro e he
    have hb := (List.mem_filter.1 (show e ∈ List.filter _ _ from he)).2
    simp only [beq_iff_eq] at hb
    intro hcontra
    rw [hcontra] at hb
    exact absurd hb (by decide)

/-- C9 witness: the theorem at a record containing trigger entities, applied
to the first diagnostic-reasoning entity of event 1. -/
theorem c9_witness :
    ¬ ((((process_medical_record c6Record none none).processed.events.get
        ⟨0, by decide⟩).bianzhen.entities).get ⟨0, by decide⟩).label =
      some "诊疗事件触发词" :=
  (c9_no_trigger_arguments c6Record none none (fun g hg => by cases hg) _
    (List.get_mem _ 0 (by decide))).1 _ (List.get_mem _ 0 (by decide))

/-! ### C7: patient resolution and cross-record inheritance -/

/-- 4.1 enrichment only adds attributes. -/
theorem enrich_fangji_core (extra : List (EId × Entity)) (es : List Entity)
    (rels : List Rel) (fj : Entity) :
    (enrich_fangji extra es rels fj).core = fj.core := by
  unfold enrich_fangji
  induction rels generalizing fj with
  | nil => rfl
  | cons r t ih =>
    simp only [List.foldl_cons]
    rw [ih]
    split
    · rcases r.to_id.bind (entity_by_id_get extra es) with _ | te
      · rfl
      · exact Entity.core_setAttr fj _ _
    · rfl

/-- The composition loop only ever re-adds nested entities to the event list. -/
theorem foldl_compStep_evEnts (f : EId) (t : String) :
    ∀ (l : List Entity) (acc : List Entity × List Rel × Int × List Rel),
    ∀ e ∈ (l.foldl (compStep f t) acc).1, e ∈ acc.1 ∨ e ∈ l
  | [], acc => fun e he => Or.inl he
  | x :: xs, acc => by
    intro e he
    rcases foldl_compStep_evEnts f t xs (compStep f t acc x) e he with h | h
    · by_cases hc : acc.1.contains x = true
      · left
        simpa [compStep, hc] using h
      · have h2 : e ∈ acc.1 ++ [x] := by simpa [compStep, hc] using h
        rcases List.mem_append.1 h2 with h3 | h3
        · exact Or.inl h3
        · exact Or.inr (List.mem_cons.2 (Or.inl (List.mem_singleton.1 h3)))
    · exact Or.inr (by simp [h])

/-- One unknown-formula step only removes entities, re-adds nested ones, or
adds the freshly synthesized 方剂 entity. -/
theorem unkStep_evEnts (rid : String) (o : Nat) (st : UnkSt) (u : Entity) :
    ∀ e ∈ (unkStep rid o st u).evEnts, e ∈ st.evEnts ∨ e.label = some "方剂" := by
  intro e he
  rcases foldl_compStep_evEnts _ _ _ _ e he with h | h
  · rcases foldl_compStep_evEnts _ _ _ _ e h with h2 | h2
    · rcases List.mem_append.1 h2 with h3 | h3
      · exact Or.inl (List.mem_of_mem_filter h3)
      · right
        have : e = nfEntity rid o st.seq _ := List.mem_singleton.1 h3
        rw [this]
        rfl
    · exact Or.inl (List.mem_of_mem_filter (List.mem_of_mem_filter h2))
  · exact Or.inl (List.mem_of_mem_filter (List.mem_of_mem_filter h))

theorem foldl_unkStep_evEnts (rid : String) (o : Nat) :
    ∀ (unks : List Entity) (st : UnkSt),
    ∀ e ∈ (unks.foldl (unkStep rid o) st).evEnts, e ∈ st.evEnts ∨ e.label = some "方剂"
  | [], st => fun e he => Or.inl he
  | u :: us, st => by
    intro e he
    rcases foldl_unkStep_evEnts rid o us (unkStep rid o st u) e he with h | h
    · exact unkStep_evEnts rid o st u e h
    · exact Or.inr h

theorem process_unknowns_evEnts (rid : String) (o : Nat) (evEnts : List Entity)
    (evRels : List Rel) (extra : List (EId × Entity)) (c : Int) :
    ∀ e ∈ (process_unknowns rid o evEnts evRels extra c).evEnts,
      e ∈ evEnts ∨ e.label = some "方剂" :=
  fun e he => foldl_unkStep_evEnts rid o _ _ e he

/-- Core-equal lists have pointwise equal labels for their members. -/
theorem mem_label_of_coreMap : ∀ (es es' : List Entity),
    es.map Entity.core = es'.map Entity.core →
    ∀ e ∈ es, ∃ e' ∈ es', e.label = e'.label
  | [], [], _ => fun e he => absurd he (List.not_mem_nil e)
  | [], _ :: _, h => by simp at h
  | _ :: _, [], h => by simp at h
  | e :: t, e' :: t', h => by
    simp only [List.map_cons, List.cons.injEq] at h
    intro x hx
    rcases List.mem_cons.1 hx with rfl | hx
    · exact ⟨e', by simp, Entity.label_of_core h.1⟩
    · obtain ⟨y, hy, hl⟩ := mem_label_of_coreMap t t' h.2 x hx
      exact ⟨y, by simp [hy], hl⟩

/-- If the raw record has no 患者-labelled entity, neither does the merged
entity list, so pass 2 falls back to the inherited patient. -/
theorem merged_find_patient_none (r : RawRecord)
    (hnolocal : ∀ e ∈ r.entities.getD [], ¬ e.label = some "患者") :
    (merge_drug_attrs (r.entities.getD []) (r.relations.getD [])).find?
      (fun e => e.label == some "患者") = none := by
  have h2 : (r.entities.getD []).find? (fun e => e.label == some "患者") = none := by
    rw [List.find?_eq_none]
    intro e he
    simpa using hnolocal e he
  have h1 := find?_label_congr "患者"
    (merge_drug_attrs (r.entities.getD []) (r.relations.getD []))
    (r.entities.getD []) (coreMap_merge_drug_attrs _ _)
  rw [h2] at h1
  exact Option.map_eq_none.1 h1

/-- A record with a local patient resolves the patient to (an
attribute-enriched copy of) the first 患者-labelled entity. -/
theorem record_patient_local (r : RawRecord) (gp : Option Entity)
    (copt : Option Counters) (p0 : Entity)
    (hdef : (r.entities.getD []).find? (fun e => e.label == some "患者") = some p0) :
    ∃ q, (process_medical_record r gp copt).patient = some q ∧
      q.id = p0.id ∧ q.label = some "患者" := by
  have h1 := find?_label_congr "患者"
    (merge_drug_attrs (r.entities.getD []) (r.relations.getD []))
    (r.entities.getD []) (coreMap_merge_drug_attrs _ _)
  rw [hdef] at h1
  rcases hfind : (merge_drug_attrs (r.entities.getD []) (r.relations.getD [])).find?
      (fun e => e.label == some "患者") with _ | p'
  · rw [hfind] at h1
    cases h1
  · rw [hfind] at h1
    simp only [Option.map_some'] at h1
    injection h1 with hcore
    obtain ⟨q, hq, hqcore⟩ := merge_patient_attrs_snd_local _ gp p' hfind
    refine ⟨q, hq, ?_, ?_⟩
    · rw [Entity.id_of_core hqcore, Entity.id_of_core hcore]
    · rw [Entity.label_of_core hqcore, Entity.label_of_core hcore]
      have := List.find?_some hdef
      simpa using this

/-- A record with no local patient resolves the patient to (an
attribute-enriched copy of) the inherited one, keeping id and label. -/
theorem record_patient_nolocal (r : RawRecord) (gp : Option Entity)
    (copt : Option Counters) (g : Entity)
    (hnolocal : ∀ e ∈ r.entities.getD [], ¬ e.label = some "患者")
    (hgp : gp = some g) :
    ∃ q, (process_medical_record r gp copt).patient = some q ∧
      q.id = g.id ∧ q.label = g.label := by
  obtain ⟨-, -, h3⟩ := merge_patient_attrs_snd_nolocal
    (merge_drug_attrs (r.entities.getD []) (r.relations.getD [])) gp
    (merged_find_patient_none r hnolocal)
  obtain ⟨q, hq, hcore⟩ := h3 g hgp
  exact ⟨q, hq, Entity.id_of_core hcore, Entity.label_of_core hcore⟩

/-- Event-loop induction with an invariant `Q` on the threaded record entity
list. -/
theorem process_events_forall_inv (rid : String) (text : String) (pat : Option Entity)
    (rels : List Rel) (P : EventObj → Prop) (Q : List Entity → Prop)
    (hQ : ∀ es extra c o b, Q es → Q (process_event rid text pat rels es extra c o b).2.1)
    (hP : ∀ es extra c o b, Q es →
      P (process_event rid text pat rels es extra c o b).1.event) :
    ∀ (bounds : List (Int × Int)) (o : Nat) (es : List Entity)
      (extra : List (EId × Entity)) (c : Int), Q es →
      ∀ v ∈ (process_events rid text pat rels bounds o es extra c).1, P v.event
  | [], o, es, extra, c => by
    intro _ v hv
    simp [process_events] at hv
  | b :: bs, o, es, extra, c => by
    intro hQes v hv
    have hv2 : v = (process_event rid text pat rels es extra c o b).1 ∨
        v ∈ (process_events rid text pat rels bs (o + 1)
          (process_event rid text pat rels es extra c o b).2.1
          (process_event rid text pat rels es extra c o b).2.2.1
          (process_event rid text pat rels es extra c o b).2.2.2).1 := by
      simpa [process_events] using hv
    rcases hv2 with rfl | hv2
    · exact hP es extra c o b hQes
    · exact process_events_forall_inv rid text pat rels P Q hQ hP bs (o + 1) _ _ _
        (hQ es extra c o b hQes) v hv2

/-- The entity list threaded by one event keeps each entity's label. -/
theorem process_event_es_labels (rid : String) (text : String) (pat : Option Entity)
    (rels : List Rel) (es : List Entity) (extra : List (EId × Entity)) (c : Int)
    (o : Nat) (b : Int × Int) :
    ∀ e ∈ (process_event rid text pat rels es extra c o b).2.1,
      ∃ e0 ∈ es, e.label = e0.label := by
  intro e he
  obtain ⟨e0, he0, rfl⟩ := List.mem_map.1 (show e ∈ List.map _ es from he)
  refine ⟨e0, he0, ?_⟩
  split
  · exact Entity.label_of_core (enrich_fangji_core extra es rels e0)
  · rfl

/-- The event's selected-and-enriched entity list keeps each entity's label. -/
theorem event_entities_labels (rels : List Rel) (es : List Entity)
    (extra : List (EId × Entity)) (s en : Int) :
    ∀ e ∈ (es.filter (inEvent s en)).map (fun e =>
        if e.label == some "方剂" then enrich_fangji extra es rels e else e),
      ∃ e0 ∈ es, e.label = e0.label := by
  intro e he
  obtain ⟨e0, he0, rfl⟩ := List.mem_map.1 he
  refine ⟨e0, List.mem_of_mem_filter he0, ?_⟩
  split
  · exact Entity.label_of_core (enrich_fangji_core extra es rels e0)
  · rfl

/-- The resolved patient is appended to the assembled 辨证论元 entity list
when no 患者-labelled entity was selected. -/
theorem bz_append_mem (L bz0 : List Entity) (pat : Option Entity) (q : Entity)
    (hL : L = (if bz0.any (fun x => x.label == some "患者") = true then bz0
      else match pat with
        | some p => bz0 ++ [p]
        | none => bz0))
    (hpat : pat = some q)
    (hany : bz0.any (fun x => x.label == some "患者") = false) : q ∈ L := by
  subst hL
  subst hpat
  simp only [hany, Bool.false_eq_true, if_false]
  simp

/-- In a record with no 患者-labelled entity, the (inherited) resolved
patient is appended to every event's diagnostic-reasoning entity list. -/
theorem record_appends_patient (r : RawRecord) (gp : Option Entity)
    (copt : Option Counters) (q : Entity)
    (hnolocal : ∀ e ∈ r.entities.getD [], ¬ e.label = some "患者")
    (hq : (rec_merged r gp).2 = some q) :
    ∀ ev ∈ (process_medical_record r gp copt).processed.events,
      q ∈ ev.bianzhen.entities := by
  have hQ0 : ∀ e ∈ (rec_merged r gp).1, ¬ e.label = some "患者" := by
    intro e he hcontra
    obtain ⟨e', he', hl⟩ := mem_label_of_coreMap (rec_merged r gp).1 (r.entities.getD [])
      (by
        unfold rec_merged
        exact (coreMap_merge_patient_attrs _ _).trans (coreMap_merge_drug_attrs _ _))
      e he
    exact hnolocal e' he' (hl ▸ hcontra)
  intro ev hev
  obtain ⟨v, hv, rfl⟩ := List.mem_map.1
    (show ev ∈ (rec_loop r gp copt).1.map (fun v => v.event) from hev)
  refine process_events_forall_inv r.id (r.text.getD "") (rec_merged r gp).2
    (r.relations.getD [])
    (fun evo => q ∈ evo.bianzhen.entities)
    (fun es => ∀ e ∈ es, ¬ e.label = some "患者")
    ?_ ?_ _ 1 _ [] _ hQ0 v
    (show v ∈ (process_events r.id (r.text.getD "") (rec_merged r gp).2
      (r.relations.getD [])
      (event_boundaries (rec_merged r gp).1 (((r.text.getD "").length : Int)))
      1 (rec_merged r gp).1 [] (rec_counters0 r copt).relation).1 from hv)
  · intro es extra c o b hQes e he hcontra
    obtain ⟨e0, he0, hl⟩ := process_event_es_labels r.id (r.text.getD "")
      (rec_merged r gp).2 (r.relations.getD []) es extra c o b e he
    exact hQes e0 he0 (hl ▸ hcontra)
  · intro es extra c o b hQes
    refine bz_append_mem _ _ (rec_merged r gp).2 q rfl hq ?_
    rw [List.any_eq_false]
    intro x hx
    have hx2 : x ∈ (process_unknowns r.id o
        ((es.filter (inEvent b.1 b.2)).map (fun e =>
          if e.label == some "方剂" then enrich_fangji extra es
            (r.relations.getD []) e else e))
        ((r.relations.getD []).filter (relInEvent extra es b.1 b.2))
        extra c).evEnts :=
      List.mem_of_mem_filter (show x ∈ List.filter _ _ from hx)
    have hxlab : ¬ x.label = some "患者" := by
      rcases process_unknowns_evEnts _ _ _ _ _ _ x hx2 with h | h
      · obtain ⟨e0, he0, hl⟩ := event_entities_labels
          (r.relations.getD []) es extra b.1 b.2 x h
        intro hcontra
        exact hQes e0 he0 (hl ▸ hcontra)
      · intro hcontra
        rw [hcontra] at h
        exact absurd h (by decide)
    simpa using hxlab

/-- Every event result the pass-4 loop emits satisfies any property each
single `process_event` call guarantees of its full result. -/
theorem process_events_forall_res (rid : String) (text : String) (pat : Option Entity)
    (rels : List Rel) (P : EvRes → Prop)
    (hP : ∀ es extra c o b, P (process_event rid text pat rels es extra c o b).1) :
    ∀ (bounds : List (Int × Int)) (o : Nat) (es : List Entity)
      (extra : List (EId × Entity)) (c : Int),
      ∀ v ∈ (process_events rid text pat rels bounds o es extra c).1, P v
  | [], _, _, _, _ => by
    intro v hv
    simp [process_events] at hv
  | b :: bs, o, es, extra, c => by
    intro v hv
    simp only [process_events, List.mem_cons] at hv
    rcases hv with rfl | hv
    · exact hP es extra c o b
    · exact process_events_forall_res rid text pat rels P hP bs (o + 1) _ _ _ v hv

/-- Lines 182-184 at a single event: when none of the entities selected for
the event is 患者-labelled (so the 患者/症状/病因病机 filter yields no
患者-labelled entity either), the resolved patient is appended to the
辨证论元 entity list. -/
theorem process_event_appends_patient (rid : String) (text : String) (q : Entity)
    (rels : List Rel) (es : List Entity) (extra : List (EId × Entity))
    (c : Int) (o : Nat) (b : Int × Int)
    (h : ∀ e ∈ (process_event rid text (some q) rels es extra c o b).1.final_entities,
      ¬ e.label = some "患者") :
    q ∈ (process_event rid text (some q) rels es extra c o b).1.event.bianzhen.entities := by
  refine bz_append_mem _ _ (some q) q rfl rfl ?_
  rw [List.any_eq_false]
  intro x hx
  have hx2 : x ∈ (process_event rid text (some q) rels es extra c o b).1.final_entities :=
    List.mem_of_mem_filter (show x ∈ List.filter _ _ from hx)
  simpa using h x hx2

/-- Lines 182-184 over a whole record, with no assumption on where the
resolved patient came from: every produced event none of whose selected
entities is 患者-labelled gets the resolved patient appended to its
diagnostic-reasoning entity list — also in records that do contain a local
患者 entity, merely outside this event's range. -/
theorem record_event_appends_patient (r : RawRecord) (gp : Option Entity)
    (copt : Option Counters) (q : Entity)
    (hq : (process_medical_record r gp copt).patient = some q) :
    ∀ v ∈ (process_medical_record r gp copt).evs,
      (∀ e ∈ v.final_entities, ¬ e.label = some "患者") →
      q ∈ v.event.bianzhen.entities := by
  intro v hv h
  have hq2 : (rec_merged r gp).2 = some q := hq
  have hv2 : v ∈ (process_events r.id (r.text.getD "") (rec_merged r gp).2
      (r.relations.getD [])
      (event_boundaries (rec_merged r gp).1 (((r.text.getD "").length : Int)))
      1 (rec_merged r gp).1 [] (rec_counters0 r copt).relation).1 := hv
  rw [hq2] at hv2
  exact process_events_forall_res r.id (r.text.getD "") (some q)
    (r.relations.getD [])
    (fun w => (∀ e ∈ w.final_entities, ¬ e.label = some "患者") →
      q ∈ w.event.bianzhen.entities)
    (fun es extra c o b => process_event_appends_patient r.id (r.text.getD "") q
      (r.relations.getD []) es extra c o b)
    _ 1 _ [] _ v hv2 h

theorem getLast?_cons_of_ne_nil {α : Type} (a : α) (l : List α) (h : l ≠ []) :
    (a :: l).getLast? = l.getLast? := by
  cases l with
  | nil => exact absurd rfl h
  | cons x xs => exact List.getLast?_cons_cons

theorem run_records_length : ∀ (rs : List RawRecord) (gp : Option Entity) (c : Counters),
    (run_records rs gp c).1.length = rs.length
  | [], _, _ => rfl
  | r :: rest, gp, c => by
    show ((process_medical_record r gp (some c)).processed ::
      (run_records rest _ _).1).length = _
    rw [List.length_cons, run_records_length rest]
    rfl

/-- Threading through a run of records without any local patient: record B at
the end still appends a patient with the carried patient's id. -/
theorem c7_aux : ∀ (mid : List RawRecord) (b : RawRecord) (gp : Option Entity)
    (c : Counters) (q : Entity),
    gp = some q → q.label = some "患者" →
    (∀ m ∈ mid, ∀ e ∈ m.entities.getD [], ¬ e.label = some "患者") →
    (∀ e ∈ b.entities.getD [], ¬ e.label = some "患者") →
    ∀ out, (run_records (mid ++ [b]) gp c).1.getLast? = some out →
    ∀ ev ∈ out.events, ∃ w ∈ ev.bianzhen.entities, w.id = q.id ∧ w.label = some "患者"
  | [], b, gp, c, q => by
    intro hgp hqlab _ hb out hout ev hev
    have hout2 : out = (process_medical_record b gp (some c)).processed := by
      have : (run_records ([] ++ [b]) gp c).1.getLast? =
          some (process_medical_record b gp (some c)).processed := rfl
      rw [this] at hout
      injection hout with h
      exact h.symm
    subst hout2
    obtain ⟨qb, hqb, hqbid, hqblab⟩ :=
      record_patient_nolocal b gp (some c) q hb hgp
    refine ⟨qb, record_appends_patient b gp (some c) qb hb hqb ev hev, hqbid, ?_⟩
    rw [hqblab, hqlab]
  | m :: mid, b, gp, c, q => by
    intro hgp hqlab hmid hb out hout ev hev
    obtain ⟨q', hq', hq'id, hq'lab⟩ :=
      record_patient_nolocal m gp (some c) q (hmid m (by simp)) hgp
    have hq'lab2 : q'.label = some "患者" := by rw [hq'lab, hqlab]
    have hcons : (run_records ((m :: mid) ++ [b]) gp c).1 =
        (process_medical_record m gp (some c)).processed ::
          (run_records (mid ++ [b])
            (match (process_medical_record m gp (some c)).patient with
              | some p => some p
              | none => gp)
            (process_medical_record m gp (some c)).id_counters).1 := rfl
    have hgp1 : (match (process_medical_record m gp (some c)).patient with
        | some p => some p
        | none => gp) = some q' := by
      rw [hq']
    rw [hcons, hgp1] at hout
    have hne : (run_records (mid ++ [b]) (some q')
        (process_medical_record m gp (some c)).id_counters).1 ≠ [] := by
      intro hcontra
      have := run_records_length (mid ++ [b]) (some q')
        (process_medical_record m gp (some c)).id_counters
      rw [hcontra] at this
      simp at this
    rw [getLast?_cons_of_ne_nil _ _ hne] at hout
    obtain ⟨w, hw, hwid, hwlab⟩ := c7_aux mid b (some q')
      (process_medical_record m gp (some c)).id_counters q' rfl hq'lab2
      (fun m2 hm2 => hmid m2 (by simp [hm2])) hb out hout ev hev
    exact ⟨w, hw, by rw [hwid, hq'id], hwlab⟩

/-- C7: the resolved patient is the first locally occurring 患者-labelled
entity, falling back to the carried-forward patient; whatever record it came
from, every produced event none of whose selected entities is 患者-labelled
(so its diagnostic-reasoning filter yields no patient either) gets the
resolved patient appended to its diagnostic-reasoning entities; and across a
sequential run, a record with no local patient, preceded by records also
lacking one, still carries the patient defined by the earlier record into its
diagnostic-reasoning entities (same id, label 患者 — only its attribute map
may have been extended en route). -/
theorem c7_patient_inheritance :
    (∀ (r : RawRecord) (gp : Option Entity) (copt : Option Counters) (p0 : Entity),
      (r.entities.getD []).find? (fun e => e.label == some "患者") = some p0 →
      ∃ q, (process_medical_record r gp copt).patient = some q ∧
        q.id = p0.id ∧ q.label = some "患者") ∧
    (∀ (r : RawRecord) (gp : Option Entity) (copt : Option Counters) (g : Entity),
      (∀ e ∈ r.entities.getD [], ¬ e.label = some "患者") → gp = some g →
      ∃ q, (process_medical_record r gp copt).patient = some q ∧
        q.id = g.id ∧ q.label = g.label) ∧
    (∀ (r : RawRecord) (gp : Option Entity) (copt : Option Counters) (q : Entity),
      (process_medical_record r gp copt).patient = some q →
      ∀ v ∈ (process_medical_record r gp copt).evs,
        (∀ e ∈ v.final_entities, ¬ e.label = some "患者") →
        q ∈ v.event.bianzhen.entities) ∧
    (∀ (rdef b : RawRecord) (mid : List RawRecord) (gp0 : Option Entity)
       (c0 : Counters) (p0 : Entity),
      (rdef.entities.getD []).find? (fun e => e.label == some "患者") = some p0 →
      (∀ m ∈ mid, ∀ e ∈ m.entities.getD [], ¬ e.label = some "患者") →
      (∀ e ∈ b.entities.getD [], ¬ e.label = some "患者") →
      ∀ out, (run_records (rdef :: (mid ++ [b])) gp0 c0).1.getLast? = some out →
      ∀ ev ∈ out.events, ∃ w ∈ ev.bianzhen.entities,
        w.id = p0.id ∧ w.label = some "患者") := by
  refine ⟨record_patient_local, record_patient_nolocal,
    record_event_appends_patient, ?_⟩
  intro rdef b mid gp0 c0 p0 hdef hmid hb out hout ev hev
  obtain ⟨q1, hq1, hq1id, hq1lab⟩ := record_patient_local rdef gp0 (some c0) p0 hdef
  have hcons : (run_records (rdef :: (mid ++ [b])) gp0 c0).1 =
      (process_medical_record rdef gp0 (some c0)).processed ::
        (run_records (mid ++ [b])
          (match (process_medical_record rdef gp0 (some c0)).patient with
            | some p => some p
            | none => gp0)
          (process_medical_record rdef gp0 (some c0)).id_counters).1 := rfl
  have hgp1 : (match (process_medical_record rdef gp0 (some c0)).patient with
      | some p => some p
      | none => gp0) = some q1 := by
    rw [hq1]
  rw [hcons, hgp1] at hout
  have hne : (run_records (mid ++ [b]) (some q1)
      (process_medical_record rdef gp0 (some c0)).id_counters).1 ≠ [] := by
    intro hcontra
    have := run_records_length (mid ++ [b]) (some q1)
      (process_medical_record rdef gp0 (some c0)).id_counters
    rw [hcontra] at this
    simp at this
  rw [getLast?_cons_of_ne_nil _ _ hne] at hout
  obtain ⟨w, hw, hwid, hwlab⟩ := c7_aux mid b (some q1)
    (process_medical_record rdef gp0 (some c0)).id_counters q1 rfl hq1lab
    hmid hb out hout ev hev
  exact ⟨w, hw, by rw [hwid, hq1id], hwlab⟩

/-- Record A of the C7 witness: defines patient id 1. -/
def c7RecA : RawRecord :=
  ⟨"A", some "xy", some [.mk (.num 1) (some "患者") (some 0) (some 1) none none], some []⟩

/-- Record M of the C7 witness: no patient entity. -/
def c7RecM : RawRecord :=
  ⟨"M", some "z", some [.mk (.num 2) (some "症状") (some 0) (some 1) none none], some []⟩

/-- Record B of the C7 witness: no patient entity either. -/
def c7RecB : RawRecord :=
  ⟨"B", some "w", some [.mk (.num 3) (some "症状") (some 0) (some 1) none none], some []⟩

/-- C7 witness: after records A (patient id 1), M and B (no patient), B's
event still lists a 患者-labelled entity with id 1 among its
diagnostic-reasoning entities. -/
theorem c7_witness :
    ∃ w ∈ (((run_records (c7RecA :: ([c7RecM] ++ [c7RecB])) none ⟨0, 0⟩).1.getLast?.getD
        ⟨"", "", []⟩).events.get ⟨0, by decide⟩).bianzhen.entities,
      w.id = EId.num 1 ∧ w.label = some "患者" :=
  c7_patient_inheritance.2.2.2 c7RecA c7RecB [c7RecM] none ⟨0, 0⟩
    (Entity.mk (.num 1) (some "患者") (some 0) (some 1) none none) (by rfl)
    (by
      intro m hm
      have hm2 : m = c7RecM := by simpa using hm
      subst hm2
      intro e he
      have he2 : e = Entity.mk (.num 2) (some "症状") (some 0) (some 1) none none := by
        simpa [c7RecM] using he
      subst he2
      intro hcontra
      exact absurd hcontra (by decide))
    (by
      intro e he
      have he2 : e = Entity.mk (.num 3) (some "症状") (some 0) (some 1) none none := by
        simpa [c7RecB] using he
      subst he2
      intro hcontra
      exact absurd hcontra (by decide))
    _ (by rfl) _
    (List.get_mem _ 0 (by decide))

end Med
